import Mathlib

/-!
Shallow embedding of the annotation-threading core (`build-thread.js`).

The JS code threads a flat list of annotation records into a reply tree:
`threadAnnotations` builds an id-keyed map of mutable thread nodes and links
each node to its nearest ancestor (`setParent`, guarded by the ancestor walk
`hasPathToRoot`), and `buildThread` then projects the tree through selection,
thread-filtering, visibility, pruning, UI-state, sorting and counting passes.

Modelling conventions:
* The JS `threads` object is an association list `ThreadMap` in key-insertion
  order (annotation ids are not array-index-like strings, so JS `for..in`
  iteration order is insertion order).
* JS child arrays hold object references into the map; since map entries are
  never re-created after the linking phase starts, children are represented by
  their map keys.
* The JS `annotation` field is called `anno` here.
* The unbounded recursions of the source (`hasPathToRoot`, `setParent`, tree
  materialization) are given explicit fuel; the fuel chosen by the wrappers is
  large enough whenever the corresponding JS recursion terminates, and a
  `none`/unchanged result at every fuel models JS divergence (stack overflow).
* `Array.prototype.sort` (stable since ES2019) with the source's three-way
  comparator is modelled as a stable insertion sort over the comparator.
-/

/-- The `'dim' | 'highlight'` highlight states. -/
inductive HighlightState where
  | dim
  | highlight
deriving DecidableEq, Repr

/-- An annotation record, as consumed by the threading code: server `id`
(absent for unsaved annotations), the local `$tag` fallback, the ordered
`references` ancestor chain, and the `created` timestamp. -/
structure Ann where
  id : Option String
  tag : String
  references : List String
  created : String
deriving DecidableEq, Repr

/-- `annotationId`: `annotation.id || annotation.$tag` (JS falsy `||`:
a missing or empty-string id falls back to the `$tag`). -/
def annoId (a : Ann) : String :=
  match a.id with
  | some s => if s = "" then a.tag else s
  | none => a.tag

/-- JS truthiness of an optional string field (`undefined` and `""` are falsy). -/
def jsTruthy : Option String → Bool
  | none => false
  | some s => !(s = "")

/-- A thread node as stored in the `threads` map during the build phase.
`children` holds the keys of the child nodes. -/
structure FlatThread where
  id : String
  anno : Option Ann
  parent : Option String
  visible : Bool
  collapsed : Bool
  totalChildren : Nat
  highlightState : Option HighlightState
  children : List String
deriving DecidableEq, Repr

/-- `DEFAULT_THREAD_STATE` together with the `children: []` override used when
creating placeholder nodes. -/
def defaultThreadState : FlatThread :=
  { id := "__default__", anno := none, parent := none, visible := true,
    collapsed := false, totalChildren := 0, highlightState := none, children := [] }

/-- The node created for an input record: defaults overridden with
`children: [], annotation, id`. -/
def mkAnnThread (a : Ann) : FlatThread :=
  { defaultThreadState with id := annoId a, anno := some a }

/-- The `threads` object: id-keyed node collection in key-insertion order. -/
def ThreadMap := List (String × FlatThread)

/-- Property lookup `threads[k]` (first entry with the key). -/
def tmFind (m : ThreadMap) (k : String) : Option FlatThread :=
  match m with
  | [] => none
  | p :: rest => if p.1 = k then some p.2 else tmFind rest k

/-- Property assignment `threads[k] = v`: overwrite in place, or append a new
key (JS objects keep the insertion position of existing keys). -/
def tmSet (m : ThreadMap) (k : String) (v : FlatThread) : ThreadMap :=
  match m with
  | [] => [(k, v)]
  | p :: rest => if p.1 = k then (k, v) :: rest else p :: tmSet rest k v

/-- `hasPathToRoot(threads, id, ancestorId)` with explicit fuel: walks the
parent chain upward from `ancestorId`.  `some b` is the JS result; `none`
means the fuel ran out, i.e. the JS recursion would not have returned within
that many steps. -/
def hasPathToRootF (m : ThreadMap) (id : String) : Nat → String → Option Bool
  | 0, _ => none
  | fuel+1, ancestorId =>
    match tmFind m ancestorId with
    | none => some false
    | some t =>
      match t.parent with
      | none => some true
      | some p =>
        if p = id then some false
        else if p = "" then some true
        else hasPathToRootF m id fuel p

/-- The wrapper used by `setParent`: a terminating walk visits pairwise
distinct keys, so `m.length + 1` steps decide every terminating JS call;
a diverging call is totalized to `false`. -/
def hasPathToRoot (m : ThreadMap) (id ancestorId : String) : Bool :=
  (hasPathToRootF m id (m.length + 1) ancestorId).getD false

/-- `setParent(threads, id, parents)` with explicit fuel.  The recursion of
the source steps from `parents` to `parents.slice(0, -1)`, so fuel
`parents.length + 1` (supplied by `setParent` below) always suffices and the
fuel-out branch is unreachable from the wrapper. -/
def setParentF (m : ThreadMap) (id : String) : Nat → List String → ThreadMap
  | 0, _ => m
  | fuel+1, parents =>
    match tmFind m id with
    | none => m
    | some tid =>
      if jsTruthy tid.parent then m
      else
        match parents.getLast? with
        | none => m
        | some parentId =>
          let m1 :=
            if (tmFind m parentId).isSome then m
            else setParentF (tmSet m parentId defaultThreadState) parentId fuel
                   parents.dropLast
          if hasPathToRoot m1 id parentId then
            let m2 :=
              match tmFind m1 id with
              | some t => tmSet m1 id { t with parent := some parentId }
              | none => m1
            match tmFind m2 parentId with
            | some tp => tmSet m2 parentId { tp with children := tp.children ++ [id] }
            | none => m2
          else m1

/-- `setParent(threads, id, parents)`. -/
def setParent (m : ThreadMap) (id : String) (parents : List String) : ThreadMap :=
  setParentF m id (parents.length + 1) parents

/-- The two loops of `threadAnnotations`: create a node per record, then
establish the ancestral relationships. -/
def buildThreadMap (annotations : List Ann) : ThreadMap :=
  let m1 := annotations.foldl (fun m a => tmSet m (annoId a) (mkAnnThread a)) []
  annotations.foldl (fun m a => setParent m (annoId a) a.references) m1

/-- The root-collection loop mutates every parentless node to
`collapsed = true` before gathering it. -/
def markTopLevelCollapsed (m : ThreadMap) : ThreadMap :=
  m.map (fun p => if jsTruthy p.2.parent then p else (p.1, { p.2 with collapsed := true }))

/-- The keys gathered as `rootThreads`, in map iteration order. -/
def rootIds (m : ThreadMap) : List String :=
  (m.filter (fun p => !jsTruthy p.2.parent)).map (fun p => p.1)

/-- The scalar state of a materialized thread node (`replyCount` and `depth`
are 0 until `countRepliesAndDepth` computes them). -/
structure ThreadData where
  id : String
  anno : Option Ann
  parent : Option String
  visible : Bool
  collapsed : Bool
  totalChildren : Nat
  highlightState : Option HighlightState
  replyCount : Nat
  depth : Int
deriving DecidableEq, Repr

/-- A materialized thread tree, as traversed by the projection passes. -/
inductive Thread where
  | node : ThreadData → List Thread → Thread

def Thread.data : Thread → ThreadData
  | .node d _ => d

def Thread.children : Thread → List Thread
  | .node _ cs => cs

def Thread.setChildren : Thread → List Thread → Thread
  | .node d _, cs => .node d cs

def Thread.id (t : Thread) : String := t.data.id

def Thread.anno (t : Thread) : Option Ann := t.data.anno

def Thread.parent (t : Thread) : Option String := t.data.parent

def Thread.visible (t : Thread) : Bool := t.data.visible

def Thread.collapsed (t : Thread) : Bool := t.data.collapsed

def Thread.totalChildren (t : Thread) : Nat := t.data.totalChildren

def Thread.highlightState (t : Thread) : Option HighlightState := t.data.highlightState

def Thread.replyCount (t : Thread) : Nat := t.data.replyCount

def Thread.depth (t : Thread) : Int := t.data.depth

/-- Traverse a list of child keys with a partial materialization function,
failing as soon as one child fails (the effect of `Array.prototype.map` over
an unfolding that diverges nowhere). -/
def travChildren (f : String → Option Thread) : List String → Option (List Thread)
  | [] => some []
  | k :: ks =>
    match f k with
    | none => none
    | some t =>
      match travChildren f ks with
      | none => none
      | some ts => some (t :: ts)

/-- Turn a map node (and, recursively, the nodes its `children` keys point to)
into a `Thread`.  In JS the children arrays alias map entries, so the tree a
consumer sees is this unfolding; `none` at every fuel corresponds to a cyclic
`children` graph, on which the JS projection passes would recurse forever. -/
def materializeF (m : ThreadMap) : Nat → String → Option Thread
  | 0, _ => none
  | fuel+1, id =>
    match tmFind m id with
    | none => none
    | some t =>
      match travChildren (materializeF m fuel) t.children with
      | none => none
      | some cs =>
        some (.node ⟨t.id, t.anno, t.parent, t.visible, t.collapsed,
          t.totalChildren, t.highlightState, 0, 0⟩ cs)

/-- `threadAnnotations(annotations)`: build the map, collapse and collect the
parentless nodes, and return the synthetic root.  In an acyclic children
graph every root-to-leaf path visits pairwise distinct keys, so fuel
`m.length + 1` materializes every tree the JS code would have returned. -/
def threadAnnotations (annotations : List Ann) : Option Thread :=
  let m := markTopLevelCollapsed (buildThreadMap annotations)
  let roots := rootIds m
  match travChildren (materializeF m (m.length + 1)) roots with
  | none => none
  | some cs =>
    some (.node ⟨"root", none, none, true, false, cs.length, none, 0, 0⟩ cs)

/-- JS `<` on the raw `id` fields (a comparison with `undefined` is false):
the default top-level comparator `(a, b) => a.id < b.id`. -/
def jsLtOptStr : Option String → Option String → Bool
  | some x, some y => decide (x < y)
  | _, _ => false

/-- The `buildThread` options, after merging with `defaultOpts`. -/
structure Options where
  selected : List String := []
  forceVisible : Option (List String) := none
  filterFn : Option (Ann → Bool) := none
  threadFilterFn : Option (Thread → Bool) := none
  expanded : List (String × Bool) := []
  highlighted : List String := []
  sortCompareFn : Ann → Ann → Bool := fun a b => jsLtOptStr a.id b.id
  replySortCompareFn : Ann → Ann → Bool := fun a b => decide (a.created < b.created)

mutual
/-- `mapThread(thread, mapFn)`: apply `mapFn` to the node and replace the
children of the result with the recursively mapped original children. -/
def mapThread (f : Thread → Thread) : Thread → Thread
  | .node d cs => Thread.setChildren (f (.node d cs)) (mapThreadList f cs)
def mapThreadList (f : Thread → Thread) : List Thread → List Thread
  | [] => []
  | c :: cs => mapThread f c :: mapThreadList f cs
end

mutual
/-- `hasVisibleChildren(thread)`. -/
def hasVisibleChildren : Thread → Bool
  | .node _ cs => hasVisibleChildrenList cs
def hasVisibleChildrenList : List Thread → Bool
  | [] => false
  | c :: cs => (c.visible || hasVisibleChildren c) || hasVisibleChildrenList cs
end

/-- The three-way comparator the source builds for `Array.prototype.sort`:
annotation-less threads sort to the top, otherwise the boolean less-than
`compareFn` decides. -/
def jsCompare (compareFn : Ann → Ann → Bool) (a b : Thread) : Int :=
  match a.anno, b.anno with
  | none, none => 0
  | none, some _ => -1
  | some _, none => 1
  | some x, some y =>
    if compareFn x y then -1 else if compareFn y x then 1 else 0

/-- `sort(threads, compareFn)`: a stable sort of a copy of the array under
the three-way comparator. -/
def sortThreads (threads : List Thread) (compareFn : Ann → Ann → Bool) : List Thread :=
  List.insertionSort (fun a b => jsCompare compareFn a b ≤ 0) threads

mutual
/-- `sortThread(thread, compareFn, replyCompareFn)`: sort direct children by
`compareFn` after recursively sorting every deeper level by `replyCompareFn`. -/
def sortThread : Thread → (Ann → Ann → Bool) → (Ann → Ann → Bool) → Thread
  | .node d cs, compareFn, replyCompareFn =>
    Thread.setChildren (.node d cs) (sortThreads (sortThreadList cs replyCompareFn) compareFn)
def sortThreadList : List Thread → (Ann → Ann → Bool) → List Thread
  | [], _ => []
  | c :: cs, replyCompareFn =>
    sortThread c replyCompareFn replyCompareFn :: sortThreadList cs replyCompareFn
end

mutual
/-- `countRepliesAndDepth(thread, depth)`. -/
def countRepliesAndDepth : Thread → Int → Thread
  | .node d cs, depth =>
    let children := countRepliesAndDepthList cs (depth + 1)
    let replyCount := children.foldl (fun total child => total + 1 + child.replyCount) 0
    .node { d with depth := depth, replyCount := replyCount } children
def countRepliesAndDepthList : List Thread → Int → List Thread
  | [], _ => []
  | c :: cs, depth => countRepliesAndDepth c depth :: countRepliesAndDepthList cs depth
end

mutual
/-- All nodes of a tree (the tree itself and, recursively, its descendants). -/
def subtrees : Thread → List Thread
  | .node d cs => .node d cs :: subtreesList cs
def subtreesList : List Thread → List Thread
  | [] => []
  | c :: cs => subtrees c ++ subtreesList cs
end

mutual
/-- The number of descendant nodes (all levels, not only direct children). -/
def descCount : Thread → Nat
  | .node _ cs => descCountList cs
def descCountList : List Thread → Nat
  | [] => 0
  | c :: cs => (1 + descCount c) + descCountList cs
end

mutual
/-- Normalize the two derived counters everywhere; two trees are equal under
`stripCount` iff they agree on every field except `replyCount` and `depth`. -/
def stripCount : Thread → Thread
  | .node d cs => .node { d with replyCount := 0, depth := 0 } (stripCountList cs)
def stripCountList : List Thread → List Thread
  | [] => []
  | c :: cs => stripCount c :: stripCountList cs
end

/-- `hasForcedVisible`: `opts.forceVisible && opts.forceVisible.length`. -/
def hasForcedVisible (opts : Options) : Bool :=
  match opts.forceVisible with
  | some l => decide (l.length ≠ 0)
  | none => false

/-- The `isVisible` closure of `buildThread`. -/
def isVisible (opts : Options) (t : Thread) : Bool :=
  if !t.visible then false
  else
    match t.anno with
    | none => false
    | some a =>
      if hasForcedVisible opts && (opts.forceVisible.getD []).contains (annoId a) then true
      else
        match opts.filterFn with
        | some f => f a
        | none => true

/-- The per-node UI-state update (highlight and collapse) of `buildThread`. -/
def uiState (opts : Options) (t : Thread) : Thread :=
  let hasHighlights := decide (opts.highlighted.length > 0)
  let hl : Option HighlightState :=
    if hasHighlights then
      (if t.anno.isSome && opts.highlighted.contains t.id then some .highlight
       else some .dim)
    else t.highlightState
  let collapsed :=
    match opts.expanded.find? (fun p => p.1 = t.id) with
    | some p => !p.2
    | none =>
      let hasUnfilteredChildren := opts.filterFn.isSome && hasVisibleChildren t
      t.collapsed && !hasUnfilteredChildren
  .node { t.data with collapsed := collapsed, highlightState := hl } t.children

/-- Stage 2: `if (hasSelected) thread.children = thread.children.filter(...)`. -/
def applySelected (opts : Options) (t : Thread) : Thread :=
  if decide (opts.selected.length > 0) then
    Thread.setChildren t (t.children.filter (fun child => opts.selected.contains child.id))
  else t

/-- Stage 3: `if (threadsFiltered) thread.children = thread.children.filter(opts.threadFilterFn)`. -/
def applyThreadFilter (opts : Options) (t : Thread) : Thread :=
  match opts.threadFilterFn with
  | some f => Thread.setChildren t (t.children.filter f)
  | none => t

/-- Stage 4: recompute `visible` on every node. -/
def applyVisibility (opts : Options) (t : Thread) : Thread :=
  mapThread (fun th => .node { th.data with visible := isVisible opts th } th.children) t

/-- Stage 5: drop top-level threads with no visible annotation anywhere. -/
def pruneInvisible (t : Thread) : Thread :=
  Thread.setChildren t (t.children.filter (fun child => child.visible || hasVisibleChildren child))

/-- Stage 6: per-node UI state. -/
def applyUIState (opts : Options) (t : Thread) : Thread :=
  mapThread (uiState opts) t

/-- Stages 2-8 of `buildThread` on the materialized raw tree. -/
def projectTree (opts : Options) (t : Thread) : Thread :=
  let t1 := applySelected opts t
  let t2 := applyThreadFilter opts t1
  let t3 := applyVisibility opts t2
  let t4 := pruneInvisible t3
  let t5 := applyUIState opts t4
  let t6 := sortThread t5 opts.sortCompareFn opts.replySortCompareFn
  countRepliesAndDepth t6 (-1)

/-- `buildThread(annotations, options)`:`none` models the stack overflow the
JS code hits when the built children graph is cyclic. -/
def buildThread (annotations : List Ann) (opts : Options) : Option Thread :=
  (threadAnnotations annotations).map (projectTree opts)

/-- Modelled from the spec, for comparison with `buildThread`: the same
pipeline with the selection-pruning stage removed entirely ("an empty
`selected` list means no restriction"). -/
def projectTreeNoSelection (opts : Options) (t : Thread) : Thread :=
  let t2 := applyThreadFilter opts t
  let t3 := applyVisibility opts t2
  let t4 := pruneInvisible t3
  let t5 := applyUIState opts t4
  let t6 := sortThread t5 opts.sortCompareFn opts.replySortCompareFn
  countRepliesAndDepth t6 (-1)

/-- Modelled from the spec: `buildThread` with no selection-based pruning. -/
def buildThreadWithoutSelection (annotations : List Ann) (opts : Options) : Option Thread :=
  (threadAnnotations annotations).map (projectTreeNoSelection opts)

/-! ## Basic map lemmas -/

theorem tmFind_tmSet_self (m : ThreadMap) (k : String) (v : FlatThread) :
    tmFind (tmSet m k v) k = some v := by
  induction m with
  | nil => simp [tmSet, tmFind]
  | cons p rest ih =>
    by_cases h : p.1 = k
    · simp [tmSet, tmFind, h]
    · simp [tmSet, tmFind, h, ih]

theorem tmFind_tmSet_ne (m : ThreadMap) (k k' : String) (v : FlatThread)
    (h : k' ≠ k) : tmFind (tmSet m k v) k' = tmFind m k' := by
  have hk : k ≠ k' := Ne.symm h
  induction m with
  | nil => simp [tmSet, tmFind, hk]
  | cons p rest ih =>
    by_cases hp : p.1 = k
    · simp [tmSet, tmFind, hp, hk]
    · by_cases hp' : p.1 = k'
      · simp [tmSet, tmFind, hp, hp', h]
      · simp [tmSet, tmFind, hp, hp', ih]

theorem tmSet_entries (m : ThreadMap) (k k' : String) (v t : FlatThread)
    (h : tmFind (tmSet m k v) k' = some t) : t = v ∨ tmFind m k' = some t := by
  by_cases hk : k' = k
  · subst hk
    rw [tmFind_tmSet_self] at h
    exact Or.inl (Option.some_injective _ h).symm
  · rw [tmFind_tmSet_ne m k k' v hk] at h
    exact Or.inr h

theorem tmFind_isSome_tmSet (m : ThreadMap) (k k' : String) (v : FlatThread)
    (h : (tmFind (tmSet m k v) k').isSome) : k' = k ∨ (tmFind m k').isSome := by
  by_cases hk : k' = k
  · exact Or.inl hk
  · rw [tmFind_tmSet_ne m k k' v hk] at h
    exact Or.inr h

/-! ## Thread structure lemmas -/

@[simp] theorem Thread.data_node (d : ThreadData) (cs : List Thread) :
    (Thread.node d cs).data = d := rfl

@[simp] theorem Thread.children_node (d : ThreadData) (cs : List Thread) :
    (Thread.node d cs).children = cs := rfl

@[simp] theorem Thread.data_setChildren (t : Thread) (cs : List Thread) :
    (Thread.setChildren t cs).data = t.data := by
  cases t
  rfl

@[simp] theorem Thread.children_setChildren (t : Thread) (cs : List Thread) :
    (Thread.setChildren t cs).children = cs := by
  cases t
  rfl

theorem Thread.my_induction (motive : Thread → Prop)
    (h : ∀ d cs, (∀ c ∈ cs, motive c) → motive (.node d cs)) : ∀ t, motive t
  | .node d cs => h d cs (fun c hc => Thread.my_induction motive h c)
decreasing_by
  have := List.sizeOf_lt_of_mem hc
  simp only [Thread.node.sizeOf_spec]
  omega

/-! ## Equations for the mutual list helpers -/

@[simp] theorem mapThreadList_eq (f : Thread → Thread) (cs : List Thread) :
    mapThreadList f cs = cs.map (mapThread f) := by
  induction cs with
  | nil => rfl
  | cons c cs ih => simp [mapThreadList, ih]

@[simp] theorem hasVisibleChildrenList_eq (cs : List Thread) :
    hasVisibleChildrenList cs = cs.any (fun c => c.visible || hasVisibleChildren c) := by
  induction cs with
  | nil => rfl
  | cons c cs ih => simp [hasVisibleChildrenList, ih]

@[simp] theorem sortThreadList_eq (cs : List Thread) (r : Ann → Ann → Bool) :
    sortThreadList cs r = cs.map (fun c => sortThread c r r) := by
  induction cs with
  | nil => rfl
  | cons c cs ih => simp [sortThreadList, ih]

@[simp] theorem countRepliesAndDepthList_eq (cs : List Thread) (d : Int) :
    countRepliesAndDepthList cs d = cs.map (fun c => countRepliesAndDepth c d) := by
  induction cs with
  | nil => rfl
  | cons c cs ih => simp [countRepliesAndDepthList, ih]

@[simp] theorem subtreesList_eq (cs : List Thread) :
    subtreesList cs = cs.flatMap subtrees := by
  induction cs with
  | nil => rfl
  | cons c cs ih => simp [subtreesList, ih]

@[simp] theorem descCountList_eq (cs : List Thread) :
    descCountList cs = (cs.map (fun c => 1 + descCount c)).sum := by
  induction cs with
  | nil => rfl
  | cons c cs ih => simp [descCountList, ih]

@[simp] theorem stripCountList_eq (cs : List Thread) :
    stripCountList cs = cs.map stripCount := by
  induction cs with
  | nil => rfl
  | cons c cs ih => simp [stripCountList, ih]

/-! ## Subtree membership -/

theorem self_mem_subtrees (t : Thread) : t ∈ subtrees t := by
  cases t
  simp [subtrees]

theorem mem_subtrees_of_child {c s : Thread} {d : ThreadData} {cs : List Thread}
    (hc : c ∈ cs) (hs : s ∈ subtrees c) : s ∈ subtrees (.node d cs) := by
  simp only [subtrees, subtreesList_eq, List.mem_cons, List.mem_flatMap]
  exact Or.inr ⟨c, hc, hs⟩

theorem mem_subtrees_elim {s : Thread} {d : ThreadData} {cs : List Thread}
    (h : s ∈ subtrees (.node d cs)) : s = .node d cs ∨ ∃ c ∈ cs, s ∈ subtrees c := by
  simpa [subtrees, subtreesList_eq, List.mem_flatMap] using h

/-! ## The counting pass -/

theorem countRepliesAndDepth_depth (t : Thread) (d : Int) :
    (countRepliesAndDepth t d).depth = d := by
  cases t
  simp [countRepliesAndDepth, Thread.depth]

theorem replyCount_foldl (cs : List Thread) (acc : Nat) :
    cs.foldl (fun total child => total + 1 + child.replyCount) acc =
      acc + (cs.map (fun c => 1 + c.replyCount)).sum := by
  induction cs generalizing acc with
  | nil => simp
  | cons c cs ih => simp [ih]; omega

/-- C10: the final counting pass changes only the `children`, `depth` and
`replyCount` fields: stripping the two counters commutes with the pass, so at
every position the output node agrees with the input node on `id`, `anno`,
`parent`, `visible`, `collapsed`, `totalChildren` and `highlightState`. -/
theorem countRepliesAndDepth_frame :
    ∀ (t : Thread) (d : Int), stripCount (countRepliesAndDepth t d) = stripCount t := by
  intro t
  induction t using Thread.my_induction with
  | h d0 cs ih =>
    intro d
    simp only [countRepliesAndDepth, stripCount, countRepliesAndDepthList_eq,
      stripCountList_eq, List.map_map]
    congr 1
    exact List.map_congr_left (fun c hc => by
      simpa [Function.comp] using ih c hc (d + 1))

theorem countRepliesAndDepth_node (d0 : ThreadData) (cs : List Thread) (d : Int) :
    countRepliesAndDepth (.node d0 cs) d =
      .node { d0 with
          depth := d,
          replyCount := (cs.map (fun c => countRepliesAndDepth c (d + 1))).foldl
            (fun total child => total + 1 + child.replyCount) 0 }
        (cs.map (fun c => countRepliesAndDepth c (d + 1))) := by
  simp only [countRepliesAndDepth, countRepliesAndDepthList_eq]

theorem descCount_node (d0 : ThreadData) (cs : List Thread) :
    descCount (.node d0 cs) = (cs.map (fun c => 1 + descCount c)).sum := by
  simp [descCount]

theorem countRepliesAndDepth_spec :
    ∀ (t : Thread) (d : Int) (s : Thread), s ∈ subtrees (countRepliesAndDepth t d) →
      s.replyCount = descCount s ∧ ∀ c ∈ s.children, c.depth = s.depth + 1 := by
  intro t
  induction t using Thread.my_induction with
  | h d0 cs ih =>
    intro d s hs
    rw [countRepliesAndDepth_node] at hs
    rcases mem_subtrees_elim hs with h1 | ⟨c', hc', hs'⟩
    · subst h1
      have hrc : ∀ c ∈ cs, (countRepliesAndDepth c (d + 1)).replyCount =
          descCount (countRepliesAndDepth c (d + 1)) :=
        fun c hc => (ih c hc (d + 1) _ (self_mem_subtrees _)).1
      constructor
      · show (cs.map (fun c => countRepliesAndDepth c (d + 1))).foldl
            (fun total child => total + 1 + child.replyCount) 0 = _
        rw [replyCount_foldl, descCount_node, Nat.zero_add, List.map_map, List.map_map]
        exact congrArg List.sum (List.map_congr_left
          (fun c hc => by simp [Function.comp, hrc c hc]))
      · intro c hc
        simp only [Thread.children_node, List.mem_map] at hc
        obtain ⟨c0, hc0, rfl⟩ := hc
        have hd := countRepliesAndDepth_depth c0 (d + 1)
        simp only [Thread.depth, Thread.data_node] at hd ⊢
        simp [hd]
    · obtain ⟨c0, hc0, rfl⟩ := List.mem_map.mp hc'
      exact ih c0 hc0 (d + 1) s hs'

/-- C5: in every tree `buildThread` returns, `replyCount` is the number of
descendant nodes (all levels), the root's `depth` is `-1`, and every child's
`depth` is its parent's plus one. -/
theorem buildThread_replyCount_depth (annotations : List Ann) (opts : Options)
    (t : Thread) (h : buildThread annotations opts = some t) :
    t.depth = -1 ∧ ∀ s ∈ subtrees t,
      s.replyCount = descCount s ∧ ∀ c ∈ s.children, c.depth = s.depth + 1 := by
  obtain ⟨t0, _, rfl⟩ := Option.map_eq_some'.mp h
  constructor
  · show (projectTree opts t0).depth = -1
    simp only [projectTree]
    exact countRepliesAndDepth_depth _ _
  · intro s hs
    simp only [projectTree] at hs
    exact countRepliesAndDepth_spec _ _ s hs

/-! ## Concrete probe inputs -/

/-- Comparators that never report less-than; concrete options for evaluation. -/
def probeOpts : Options :=
  { sortCompareFn := fun _ _ => false, replySortCompareFn := fun _ _ => false }

def annPlain : Ann := ⟨some "A", "tA", [], "1"⟩

def annDangling : Ann := ⟨some "B", "tB", ["A"], "1"⟩

def annSelfRef : Ann := ⟨some "X", "tX", ["X"], "1"⟩

def annReplyToX : Ann := ⟨some "Y", "tY", ["X"], "2"⟩

def annEmptyRef : Ann := ⟨some "B", "tB", [""], "1"⟩

def annTwoEmptyRefs : Ann := ⟨some "B", "tB", ["", ""], "1"⟩

def annCyc1 : Ann := ⟨some "Y", "tY", ["X"], "1"⟩

def annCyc2 : Ann := ⟨some "X", "tX", ["Y"], "2"⟩

/-- C1: FAILS on the code.  With input `[{id:"B", references:[""]}]` the
empty-string parent id defeats the JS falsy checks: B is linked as a child of
the placeholder stored at key `""` yet is also collected as a top-level child
(its parent `""` is falsy), so the returned structure contains the B node in
two children sequences (the same object twice, in JS).  And with
`[{id:"X", references:["X"]}]` the ancestor walk never compares `ancestorId`
with `id` directly, so X is linked as its own parent in the node map, against
the stated no-cycles invariant. -/
theorem buildThread_tree_violation :
    ((buildThread [annEmptyRef] probeOpts).map
        (fun t => (subtrees t).countP (fun s => s.id == "B"))) = some 2 ∧
    ((buildThread [annEmptyRef] probeOpts).map
        (fun t => ((subtrees t).filter (fun s => s.id == "B")).map (fun s => s.parent)))
      = some [some "", some ""] ∧
    ((tmFind (buildThreadMap [annSelfRef]) "X").map (fun e => (e.parent, e.children)))
      = some (some "X", ["X"]) := by
  exact ⟨rfl, rfl, rfl⟩

/-- C2: FAILS on the code.  After `[{id:"X", references:["X"]}]` is processed,
the map contains the self-cycle `X.parent = X`; the ancestor walk
`hasPathToRoot(threads, "Y", "X")` performed for the second record then
recurses forever (`none` at every fuel), which in JS is a stack overflow
inside `buildThread`.  Moreover on `[{id:"B", references:["", ""]}]` the
placeholder at key `""` becomes its own child, the children graph is cyclic,
and the projection passes would recurse forever (modelled by `none`). -/
theorem hasPathToRoot_divergence :
    (∀ n, hasPathToRootF (buildThreadMap [annSelfRef, annReplyToX]) "Y" n "X" = none) ∧
    ((tmFind (buildThreadMap [annSelfRef, annReplyToX]) "X").map (fun e => e.parent))
      = some (some "X") ∧
    buildThread [annTwoEmptyRefs] probeOpts = none := by
  refine ⟨?_, rfl, rfl⟩
  intro n
  induction n with
  | zero => rfl
  | succ n ih =>
    show hasPathToRootF (buildThreadMap [annSelfRef, annReplyToX]) "Y" n "X" = none
    exact ih

/-- C3 counterexample: with mutually referencing records (the spec's own §8
example) the cyclic link is refused: X's references end with Y's id and Y is
in the input, yet after the build X's parent is `none` (not Y) and Y's
children list is empty. -/
theorem setParent_cycle_counterexample :
    annCyc2.references.getLast? = some (annoId annCyc1) ∧
    ((tmFind (buildThreadMap [annCyc1, annCyc2]) "X").map (fun e => e.parent)) = some none ∧
    ((tmFind (buildThreadMap [annCyc1, annCyc2]) "Y").map (fun e => e.children)) = some [] := by
  exact ⟨rfl, rfl, rfl⟩

/-- C4 counterexample: the placeholder synthesized for the missing ancestor
"A" is stored under key "A", but its `id` field is the `'__default__'`
sentinel of `DEFAULT_THREAD_STATE` (the creation site never overrides `id`),
not the missing ancestor id the claim states. -/
theorem placeholder_id_counterexample :
    ((tmFind (buildThreadMap [annDangling]) "A").map (fun e => (e.id, e.anno)))
      = some ("__default__", none) ∧
    ¬ ((tmFind (buildThreadMap [annDangling]) "A").map (fun e => e.id) = some "A") := by
  exact ⟨rfl, by decide⟩

def thN (a : Ann) (i : String) : Thread := .node ⟨i, some a, none, true, false, 0, none, 0, 0⟩ []

def annN1 : Ann := ⟨some "N1", "t1", [], "1"⟩

def annN2 : Ann := ⟨some "N2", "t2", [], "2"⟩

/-- C6 counterexample: with the (inconsistent) less-than `fun _ _ => true`,
the claim demands that N2 be placed before N1 (because `lt(N2, N1)` holds),
but the sort places N1 first — no deterministic sort can satisfy the claim
for a predicate that holds in both directions. -/
theorem sortThreads_counterexample :
    ((fun (_ _ : Ann) => true) annN2 annN1) = true ∧
    ¬ (((sortThreads [thN annN1 "N1", thN annN2 "N2"] (fun _ _ => true)).map
          Thread.id).indexOf "N2" <
       ((sortThreads [thN annN1 "N1", thN annN2 "N2"] (fun _ _ => true)).map
          Thread.id).indexOf "N1") := by
  exact ⟨rfl, by decide⟩

def c7opts : Options := { probeOpts with forceVisible := some ["__default__", "A"] }

/-- C7 counterexample: the placeholder node built for `[{id:"B",
references:["A"]}]` has id `"__default__"`, which is in the `forceVisible`
set, and its prior `visible` flag is true; yet the visibility pass computes
`visible = false` for it, because `isVisible` rejects annotation-less nodes
before ever consulting `forceVisible`. -/
theorem visibility_pass_counterexample :
    ((buildThread [annDangling] c7opts).map
        (fun t => ((subtrees t).filter (fun s => s.id == "__default__")).map
          (fun s => s.visible))) = some [false] ∧
    "__default__" ∈ (c7opts.forceVisible.getD []) := by
  exact ⟨rfl, by decide⟩

/-- Witness for C5 at a concrete input. -/
theorem buildThread_replyCount_depth_witness :
    Option.elim (buildThread [annPlain, annDangling] probeOpts) False
      (fun t => t.depth = -1 ∧ ∀ s ∈ subtrees t,
        s.replyCount = descCount s ∧ ∀ c ∈ s.children, c.depth = s.depth + 1) := by
  cases h : buildThread [annPlain, annDangling] probeOpts with
  | none =>
    have hs : (buildThread [annPlain, annDangling] probeOpts).isSome = true := rfl
    rw [h] at hs
    exact absurd hs (by simp)
  | some t =>
    simp only [Option.elim]
    exact buildThread_replyCount_depth _ _ t h

/-! ## How `setParent` evolves map entries -/

/-- How any single map entry can evolve across the linking phase: every field
except `parent` is preserved, and `children` only ever grows by appends. -/
structure EntryEvolves (t t' : FlatThread) : Prop where
  id_eq : t'.id = t.id
  anno_eq : t'.anno = t.anno
  visible_eq : t'.visible = t.visible
  collapsed_eq : t'.collapsed = t.collapsed
  total_eq : t'.totalChildren = t.totalChildren
  highlight_eq : t'.highlightState = t.highlightState
  children_ext : ∃ app, t'.children = t.children ++ app

theorem EntryEvolves.refl (t : FlatThread) : EntryEvolves t t :=
  ⟨rfl, rfl, rfl, rfl, rfl, rfl, [], by simp⟩

theorem EntryEvolves.comp {a b c : FlatThread}
    (h1 : EntryEvolves a b) (h2 : EntryEvolves b c) : EntryEvolves a c := by
  obtain ⟨app1, happ1⟩ := h1.children_ext
  obtain ⟨app2, happ2⟩ := h2.children_ext
  exact ⟨h2.id_eq.trans h1.id_eq, h2.anno_eq.trans h1.anno_eq,
    h2.visible_eq.trans h1.visible_eq, h2.collapsed_eq.trans h1.collapsed_eq,
    h2.total_eq.trans h1.total_eq, h2.highlight_eq.trans h1.highlight_eq,
    app1 ++ app2, by simp [happ2, happ1]⟩

theorem EntryEvolves.parentUpdate (t : FlatThread) (q : Option String) :
    EntryEvolves t { t with parent := q } :=
  ⟨rfl, rfl, rfl, rfl, rfl, rfl, [], by simp⟩

theorem EntryEvolves.childrenAppend (t : FlatThread) (l : List String) :
    EntryEvolves t { t with children := t.children ++ l } :=
  ⟨rfl, rfl, rfl, rfl, rfl, rfl, l, by simp⟩


/-- Forward evolution of any existing entry across the two `tmSet`s of the
link step (`threads[id].parent = parentId; threads[parentId].children.push`). -/
theorem link_step_forward (m1 : ThreadMap) (i parentId k : String) (t1 ti1 : FlatThread)
    (hk : tmFind m1 k = some t1) (hi : tmFind m1 i = some ti1) :
    ∃ t', tmFind (match tmFind (tmSet m1 i { ti1 with parent := some parentId }) parentId with
        | some tp => tmSet (tmSet m1 i { ti1 with parent := some parentId }) parentId
            { tp with children := tp.children ++ [i] }
        | none => tmSet m1 i { ti1 with parent := some parentId }) k = some t' ∧
      EntryEvolves t1 t' ∧ (k ≠ i → t'.parent = t1.parent) := by
  by_cases hip : parentId = i
  · subst hip
    rw [tmFind_tmSet_self]
    by_cases hki : k = parentId
    · subst hki
      have ht1 : t1 = ti1 := Option.some_injective _ (hk.symm.trans hi)
      subst ht1
      rw [tmFind_tmSet_self]
      refine ⟨_, rfl, ?_, fun hne => absurd rfl hne⟩
      exact ⟨rfl, rfl, rfl, rfl, rfl, rfl, [k], by simp⟩
    · rw [tmFind_tmSet_ne _ _ _ _ hki, tmFind_tmSet_ne _ _ _ _ hki, hk]
      exact ⟨t1, rfl, EntryEvolves.refl t1, fun _ => rfl⟩
  · rw [tmFind_tmSet_ne _ _ _ _ hip]
    cases hb : tmFind m1 parentId with
    | none =>
      by_cases hki : k = i
      · subst hki
        have ht1 : t1 = ti1 := Option.some_injective _ (hk.symm.trans hi)
        subst ht1
        rw [tmFind_tmSet_self]
        exact ⟨_, rfl, EntryEvolves.parentUpdate t1 (some parentId),
          fun hne => absurd rfl hne⟩
      · rw [tmFind_tmSet_ne _ _ _ _ hki, hk]
        exact ⟨t1, rfl, EntryEvolves.refl t1, fun _ => rfl⟩
    | some tb =>
      by_cases hkp : k = parentId
      · subst hkp
        have ht1 : t1 = tb := Option.some_injective _ (hk.symm.trans hb)
        subst ht1
        rw [tmFind_tmSet_self]
        refine ⟨_, rfl, EntryEvolves.childrenAppend t1 [i], fun _ => rfl⟩
      · rw [tmFind_tmSet_ne _ _ _ _ hkp]
        by_cases hki : k = i
        · subst hki
          have ht1 : t1 = ti1 := Option.some_injective _ (hk.symm.trans hi)
          subst ht1
          rw [tmFind_tmSet_self]
          exact ⟨_, rfl, EntryEvolves.parentUpdate t1 (some parentId),
            fun hne => absurd rfl hne⟩
        · rw [tmFind_tmSet_ne _ _ _ _ hki, hk]
          exact ⟨t1, rfl, EntryEvolves.refl t1, fun _ => rfl⟩

/-- Forward evolution of any existing entry across one (fuelled) `setParent`
call: the entry survives, every field but `parent` evolves per
`EntryEvolves`, and the `parent` of any key other than the call's target is
untouched (the recursive placeholder chain only targets keys that were
missing from the map). -/
theorem setParentF_forward (fuel : Nat) :
    ∀ (m : ThreadMap) (i : String) (ps : List String) (k : String) (t : FlatThread),
      tmFind m k = some t →
      ∃ t', tmFind (setParentF m i fuel ps) k = some t' ∧ EntryEvolves t t' ∧
        (k ≠ i → t'.parent = t.parent) := by
  induction fuel with
  | zero =>
    intro m i ps k t hk
    exact ⟨t, hk, EntryEvolves.refl t, fun _ => rfl⟩
  | succ fuel ih =>
    intro m i ps k t hk
    simp only [setParentF]
    cases hti : tmFind m i with
    | none => exact ⟨t, hk, EntryEvolves.refl t, fun _ => rfl⟩
    | some tid =>
      by_cases hpt : jsTruthy tid.parent = true
      · simp only [hpt, if_true]
        exact ⟨t, hk, EntryEvolves.refl t, fun _ => rfl⟩
      · simp only [Bool.not_eq_true] at hpt
        simp only [hpt, Bool.false_eq_true, if_false]
        cases hgl : ps.getLast? with
        | none => exact ⟨t, hk, EntryEvolves.refl t, fun _ => rfl⟩
        | some parentId =>
          by_cases hpe : (tmFind m parentId).isSome = true
          · simp only [hpe, if_true]
            obtain ⟨t1, hf1, hev1, hp1⟩ : ∃ t1, tmFind m k = some t1 ∧
                EntryEvolves t t1 ∧ t1.parent = t.parent :=
              ⟨t, hk, EntryEvolves.refl t, rfl⟩
            by_cases hlink : hasPathToRoot m i parentId = true
            · simp only [hlink, if_true, hti]
              obtain ⟨t', hf', hev', hp'⟩ := link_step_forward m i parentId k t tid hk hti
              exact ⟨t', hf', hev', hp'⟩
            · simp only [hlink, Bool.false_eq_true, if_false]
              exact ⟨t, hk, EntryEvolves.refl t, fun _ => rfl⟩
          · simp only [hpe, Bool.false_eq_true, if_false]
            have hpn : tmFind m parentId = none := by
              cases hmp : tmFind m parentId with
              | none => rfl
              | some v => rw [hmp] at hpe; simp at hpe
            have hkp : k ≠ parentId := fun h => by
              rw [h, hpn] at hk; exact Option.noConfusion hk
            have hip : i ≠ parentId := fun h => by
              rw [h, hpn] at hti; exact Option.noConfusion hti
            have hk1 : tmFind (tmSet m parentId defaultThreadState) k = some t := by
              rw [tmFind_tmSet_ne m parentId k defaultThreadState hkp]; exact hk
            have hi1 : tmFind (tmSet m parentId defaultThreadState) i = some tid := by
              rw [tmFind_tmSet_ne m parentId i defaultThreadState hip]; exact hti
            obtain ⟨t1, hf1, hev1, hp1⟩ := ih _ parentId ps.dropLast k t hk1
            obtain ⟨ti1, hfi1, _, hpi1⟩ := ih _ parentId ps.dropLast i tid hi1
            by_cases hlink : hasPathToRoot
                (setParentF (tmSet m parentId defaultThreadState) parentId fuel ps.dropLast)
                i parentId = true
            · simp only [hlink, if_true, hfi1]
              obtain ⟨t', hf', hev', hp'⟩ := link_step_forward _ i parentId k t1 ti1 hf1 hfi1
              exact ⟨t', hf', hev1.comp hev', fun hne => (hp' hne).trans (hp1 hkp)⟩
            · simp only [hlink, Bool.false_eq_true, if_false]
              exact ⟨t1, hf1, hev1, fun _ => hp1 hkp⟩

/-- After the link step the call's target carries the assigned parent. -/
theorem link_step_parent_self (m1 : ThreadMap) (i parentId : String) (ti1 : FlatThread) :
    ∃ t', tmFind (match tmFind (tmSet m1 i { ti1 with parent := some parentId }) parentId with
        | some tp => tmSet (tmSet m1 i { ti1 with parent := some parentId }) parentId
            { tp with children := tp.children ++ [i] }
        | none => tmSet m1 i { ti1 with parent := some parentId }) i = some t' ∧
      t'.parent = some parentId := by
  by_cases hip : parentId = i
  · subst hip
    rw [tmFind_tmSet_self]
    rw [tmFind_tmSet_self]
    exact ⟨_, rfl, rfl⟩
  · rw [tmFind_tmSet_ne _ _ _ _ hip]
    cases hb : tmFind m1 parentId with
    | none =>
      rw [tmFind_tmSet_self]
      exact ⟨_, rfl, rfl⟩
    | some tb =>
      have hip' : i ≠ parentId := fun h => hip h.symm
      rw [tmFind_tmSet_ne _ _ _ _ hip', tmFind_tmSet_self]
      exact ⟨_, rfl, rfl⟩

/-- The `parent` field of the call's target after `setParent`: either it is
untouched, or it was assigned the nearest ancestor of the chain. -/
theorem setParentF_parent_self (fuel : Nat) (m : ThreadMap) (i : String)
    (ps : List String) (t : FlatThread) (hi : tmFind m i = some t) :
    ∃ t', tmFind (setParentF m i fuel ps) i = some t' ∧
      (t'.parent = t.parent ∨ ∃ q, ps.getLast? = some q ∧ t'.parent = some q) := by
  cases fuel with
  | zero => exact ⟨t, hi, Or.inl rfl⟩
  | succ fuel =>
    simp only [setParentF, hi]
    by_cases hpt : jsTruthy t.parent = true
    · simp only [hpt, if_true]
      exact ⟨t, hi, Or.inl rfl⟩
    · simp only [Bool.not_eq_true] at hpt
      simp only [hpt, Bool.false_eq_true, if_false]
      cases hgl : ps.getLast? with
      | none => exact ⟨t, hi, Or.inl rfl⟩
      | some parentId =>
        by_cases hpe : (tmFind m parentId).isSome = true
        · simp only [hpe, if_true]
          by_cases hlink : hasPathToRoot m i parentId = true
          · simp only [hlink, if_true, hi]
            obtain ⟨t', hf', hp'⟩ := link_step_parent_self m i parentId t
            exact ⟨t', hf', Or.inr ⟨parentId, rfl, hp'⟩⟩
          · simp only [hlink, Bool.false_eq_true, if_false]
            exact ⟨t, hi, Or.inl rfl⟩
        · simp only [hpe, Bool.false_eq_true, if_false]
          have hpn : tmFind m parentId = none := by
            cases hmp : tmFind m parentId with
            | none => rfl
            | some v => rw [hmp] at hpe; simp at hpe
          have hip : i ≠ parentId := fun h => by
            rw [h, hpn] at hi; exact Option.noConfusion hi
          have hi1 : tmFind (tmSet m parentId defaultThreadState) i = some t := by
            rw [tmFind_tmSet_ne m parentId i defaultThreadState hip]; exact hi
          obtain ⟨ti1, hfi1, _, hpi1⟩ := setParentF_forward fuel _ parentId ps.dropLast i t hi1
          have hpar1 : ti1.parent = t.parent := hpi1 hip
          by_cases hlink : hasPathToRoot
              (setParentF (tmSet m parentId defaultThreadState) parentId fuel ps.dropLast)
              i parentId = true
          · simp only [hlink, if_true, hfi1]
            obtain ⟨t', hf', hp'⟩ := link_step_parent_self _ i parentId ti1
            exact ⟨t', hf', Or.inr ⟨parentId, rfl, hp'⟩⟩
          · simp only [hlink, Bool.false_eq_true, if_false]
            exact ⟨ti1, hfi1, Or.inl hpar1⟩

/-- `setParent` only ever creates keys drawn from the reference chain. -/
theorem setParentF_new_keys (fuel : Nat) :
    ∀ (m : ThreadMap) (i : String) (ps : List String) (k : String),
      (tmFind (setParentF m i fuel ps) k).isSome = true →
      (tmFind m k).isSome = true ∨ k ∈ ps := by
  induction fuel with
  | zero => exact fun m i ps k h => Or.inl h
  | succ fuel ih =>
    intro m i ps k h
    simp only [setParentF] at h
    cases hti : tmFind m i with
    | none => simp only [hti] at h; exact Or.inl h
    | some tid =>
      simp only [hti] at h
      by_cases hpt : jsTruthy tid.parent = true
      · simp only [hpt, if_true] at h
        exact Or.inl h
      · simp only [Bool.not_eq_true] at hpt
        simp only [hpt, Bool.false_eq_true, if_false] at h
        cases hgl : ps.getLast? with
        | none => simp only [hgl] at h; exact Or.inl h
        | some parentId =>
          simp only [hgl] at h
          have hpmem : parentId ∈ ps := List.mem_of_getLast?_eq_some hgl
          have hsub : ∀ k', k' ∈ ps.dropLast → k' ∈ ps :=
            fun k' hk' => (List.dropLast_sublist ps).subset hk'
          by_cases hpe : (tmFind m parentId).isSome = true
          · simp only [hpe, if_true] at h
            by_cases hlink : hasPathToRoot m i parentId = true
            · simp only [hlink, if_true, hti] at h
              cases hb : tmFind (tmSet m i { tid with parent := some parentId }) parentId with
              | none =>
                simp only [hb] at h
                rcases tmFind_isSome_tmSet _ _ _ _ h with hk | hk
                · subst hk; exact Or.inl (by simp [hti])
                · exact Or.inl hk
              | some tp =>
                simp only [hb] at h
                rcases tmFind_isSome_tmSet _ _ _ _ h with hk | hk
                · subst hk; exact Or.inr hpmem
                · rcases tmFind_isSome_tmSet _ _ _ _ hk with hk' | hk'
                  · subst hk'; exact Or.inl (by simp [hti])
                  · exact Or.inl hk'
            · simp only [hlink, Bool.false_eq_true, if_false] at h
              exact Or.inl h
          · simp only [hpe, Bool.false_eq_true, if_false] at h
            have step : ∀ k', (tmFind (setParentF (tmSet m parentId defaultThreadState)
                parentId fuel ps.dropLast) k').isSome = true →
                (tmFind m k').isSome = true ∨ k' ∈ ps := by
              intro k' hk'
              rcases ih _ parentId ps.dropLast k' hk' with hx | hx
              · rcases tmFind_isSome_tmSet _ _ _ _ hx with hy | hy
                · subst hy; exact Or.inr hpmem
                · exact Or.inl hy
              · exact Or.inr (hsub _ hx)
            by_cases hlink : hasPathToRoot
                (setParentF (tmSet m parentId defaultThreadState) parentId fuel ps.dropLast)
                i parentId = true
            · simp only [hlink, if_true] at h
              cases hfi : tmFind
                  (setParentF (tmSet m parentId defaultThreadState) parentId fuel ps.dropLast)
                  i with
              | none =>
                simp only [hfi] at h
                cases hb : tmFind (setParentF (tmSet m parentId defaultThreadState)
                    parentId fuel ps.dropLast) parentId with
                | none =>
                  simp only [hb] at h
                  exact step k h
                | some tp =>
                  simp only [hb] at h
                  rcases tmFind_isSome_tmSet _ _ _ _ h with hk | hk
                  · subst hk; exact Or.inr hpmem
                  · exact step k hk
              | some ti1 =>
                simp only [hfi] at h
                cases hb : tmFind (tmSet
                    (setParentF (tmSet m parentId defaultThreadState) parentId fuel ps.dropLast)
                    i { ti1 with parent := some parentId }) parentId with
                | none =>
                  simp only [hb] at h
                  rcases tmFind_isSome_tmSet _ _ _ _ h with hk | hk
                  · subst hk
                    exact step k (by rw [hfi]; rfl)
                  · exact step k hk
                | some tp =>
                  simp only [hb] at h
                  rcases tmFind_isSome_tmSet _ _ _ _ h with hk | hk
                  · subst hk; exact Or.inr hpmem
                  · rcases tmFind_isSome_tmSet _ _ _ _ hk with hk' | hk'
                    · subst hk'
                      exact step k (by rw [hfi]; rfl)
                    · exact step k hk'
            · simp only [hlink, Bool.false_eq_true, if_false] at h
              exact step k h

@[simp] theorem jsTruthy_none : jsTruthy none = false := rfl

/-- `setParent` wrapper of `setParentF_forward`. -/
theorem setParent_forward (m : ThreadMap) (i : String) (ps : List String)
    (k : String) (t : FlatThread) (hk : tmFind m k = some t) :
    ∃ t', tmFind (setParent m i ps) k = some t' ∧ EntryEvolves t t' ∧
      (k ≠ i → t'.parent = t.parent) :=
  setParentF_forward (ps.length + 1) m i ps k t hk

/-- `setParent` wrapper of `setParentF_new_keys`. -/
theorem setParent_new_keys (m : ThreadMap) (i : String) (ps : List String)
    (k : String) (h : (tmFind (setParent m i ps) k).isSome = true) :
    (tmFind m k).isSome = true ∨ k ∈ ps :=
  setParentF_new_keys (ps.length + 1) m i ps k h

/-! ## The two build loops -/

theorem loop1_frame (l : List Ann) (acc : ThreadMap) (k : String)
    (hk : ∀ C ∈ l, annoId C ≠ k) :
    tmFind (l.foldl (fun m a => tmSet m (annoId a) (mkAnnThread a)) acc) k = tmFind acc k := by
  induction l generalizing acc with
  | nil => rfl
  | cons a l ih =>
    simp only [List.foldl_cons]
    rw [ih _ (fun C hC => hk C (List.mem_cons_of_mem a hC))]
    exact tmFind_tmSet_ne _ _ _ _ (Ne.symm (hk a (List.mem_cons_self a l)))

theorem loop1_found (l : List Ann) (acc : ThreadMap) (A : Ann)
    (hA : A ∈ l) (hnd : (l.map annoId).Nodup) :
    tmFind (l.foldl (fun m a => tmSet m (annoId a) (mkAnnThread a)) acc) (annoId A)
      = some (mkAnnThread A) := by
  obtain ⟨pre, suf, rfl⟩ := List.append_of_mem hA
  rw [List.foldl_append, List.foldl_cons]
  have hnd' := hnd
  simp only [List.map_append, List.map_cons, List.nodup_append, List.nodup_cons] at hnd'
  have hsuf : ∀ C ∈ suf, annoId C ≠ annoId A := by
    intro C hC h
    exact hnd'.2.1.1 (h ▸ List.mem_map_of_mem annoId hC)
  rw [loop1_frame suf _ _ hsuf]
  exact tmFind_tmSet_self _ _ _

theorem loop1_keys (l : List Ann) (acc : ThreadMap) (k : String)
    (h : (tmFind (l.foldl (fun m a => tmSet m (annoId a) (mkAnnThread a)) acc) k).isSome
      = true) :
    (tmFind acc k).isSome = true ∨ k ∈ l.map annoId := by
  induction l generalizing acc with
  | nil => exact Or.inl h
  | cons a l ih =>
    simp only [List.foldl_cons] at h
    rcases ih _ h with hk | hk
    · rcases tmFind_isSome_tmSet _ _ _ _ hk with hk' | hk'
      · subst hk'; simp
      · exact Or.inl hk'
    · simp [hk]

theorem loop2_forward (l : List Ann) (m : ThreadMap) (k : String) (t : FlatThread)
    (hk : tmFind m k = some t) :
    ∃ t', tmFind (l.foldl (fun m a => setParent m (annoId a) a.references) m) k = some t' ∧
      EntryEvolves t t' ∧ ((∀ C ∈ l, annoId C ≠ k) → t'.parent = t.parent) := by
  induction l generalizing m t with
  | nil => exact ⟨t, hk, EntryEvolves.refl t, fun _ => rfl⟩
  | cons a l ih =>
    simp only [List.foldl_cons]
    obtain ⟨t1, hf1, hev1, hp1⟩ := setParent_forward m (annoId a) a.references k t hk
    obtain ⟨t', hf', hev', hp'⟩ := ih _ t1 hf1
    refine ⟨t', hf', hev1.comp hev', fun hl => ?_⟩
    have h1 : t1.parent = t.parent := hp1 (Ne.symm (hl a (List.mem_cons_self a l)))
    exact (hp' (fun C hC => hl C (List.mem_cons_of_mem a hC))).trans h1

theorem loop2_new_keys (l : List Ann) (m : ThreadMap) (k : String)
    (h : (tmFind (l.foldl (fun m a => setParent m (annoId a) a.references) m) k).isSome
      = true) :
    (tmFind m k).isSome = true ∨ ∃ C ∈ l, k ∈ C.references := by
  induction l generalizing m with
  | nil => exact Or.inl h
  | cons a l ih =>
    simp only [List.foldl_cons] at h
    rcases ih _ h with hk | hk
    · rcases setParent_new_keys _ _ _ _ hk with hk' | hk'
      · exact Or.inl hk'
      · exact Or.inr ⟨a, List.mem_cons_self a l, hk'⟩
    · obtain ⟨C, hC, href⟩ := hk
      exact Or.inr ⟨C, List.mem_cons_of_mem a hC, href⟩

/-- One `setParent` call whose target has no parent yet and whose nearest
referenced ancestor already exists in the map: either the cycle check refuses
and the map is unchanged, or the child-parent link is recorded on both ends. -/
theorem setParent_step_decided (m : ThreadMap) (i : String) (ps : List String) (p : String)
    (tA tB : FlatThread) (hA : tmFind m i = some tA) (hpar : tA.parent = none)
    (hgl : ps.getLast? = some p) (hB : tmFind m p = some tB) :
    (hasPathToRoot m i p = false → setParent m i ps = m) ∧
    (hasPathToRoot m i p = true →
      ∃ tA' tB', tmFind (setParent m i ps) i = some tA' ∧ tA'.parent = some p ∧
        tmFind (setParent m i ps) p = some tB' ∧ i ∈ tB'.children) := by
  have hpe : (tmFind m p).isSome = true := by rw [hB]; rfl
  constructor
  · intro hlink
    show setParentF m i (ps.length + 1) ps = m
    simp only [setParentF, hA, hpar, jsTruthy_none, Bool.false_eq_true, if_false, hgl,
      hpe, if_true, hlink]
  · intro hlink
    show ∃ tA' tB', tmFind (setParentF m i (ps.length + 1) ps) i = some tA' ∧ _ ∧
      tmFind (setParentF m i (ps.length + 1) ps) p = some tB' ∧ _
    simp only [setParentF, hA, hpar, jsTruthy_none, Bool.false_eq_true, if_false, hgl,
      hpe, if_true, hlink]
    by_cases hip : p = i
    · subst hip
      simp only [tmFind_tmSet_self]
      exact ⟨_, _, rfl, rfl, rfl, by simp⟩
    · have hip' : i ≠ p := fun h => hip h.symm
      simp only [tmFind_tmSet_ne _ _ _ _ hip, hB]
      have hRi : tmFind (tmSet (tmSet m i { tA with parent := some p }) p
          { tB with children := tB.children ++ [i] }) i
          = some { tA with parent := some p } := by
        rw [tmFind_tmSet_ne _ _ _ _ hip', tmFind_tmSet_self]
      have hRp : tmFind (tmSet (tmSet m i { tA with parent := some p }) p
          { tB with children := tB.children ++ [i] }) p
          = some { tB with children := tB.children ++ [i] } := tmFind_tmSet_self _ _ _
      exact ⟨_, _, hRi, rfl, hRp, by simp⟩

/-- C3 (amended): if A's references end with the resolved id of an existing
record B (ids pairwise distinct), then after the build either A was linked —
its `parent` field is B's id and A's id is in B's children — or the
cycle-prevention check refused the link and A's node is left parentless. -/
theorem setParent_links_nearest_existing (annotations : List Ann) (A B : Ann)
    (hnd : (annotations.map annoId).Nodup) (hA : A ∈ annotations) (hB : B ∈ annotations)
    (hlast : A.references.getLast? = some (annoId B)) :
    ∃ tA, tmFind (buildThreadMap annotations) (annoId A) = some tA ∧
      ((tA.parent = some (annoId B) ∧
        ∃ tB, tmFind (buildThreadMap annotations) (annoId B) = some tB ∧
          annoId A ∈ tB.children) ∨
       tA.parent = none) := by
  have hA0 := loop1_found annotations [] A hA hnd
  have hB0 := loop1_found annotations [] B hB hnd
  obtain ⟨pre, suf, rfl⟩ := List.append_of_mem hA
  have hnd' := hnd
  simp only [List.map_append, List.map_cons, List.nodup_append, List.nodup_cons] at hnd'
  have hpre_ne : ∀ C ∈ pre, annoId C ≠ annoId A := by
    intro C hC h
    exact (hnd'.2.2 (List.mem_map_of_mem annoId hC)) (by simp [h])
  have hsuf_ne : ∀ C ∈ suf, annoId C ≠ annoId A := by
    intro C hC h
    exact hnd'.2.1.1 (h ▸ List.mem_map_of_mem annoId hC)
  have hmap : buildThreadMap (pre ++ A :: suf) =
      suf.foldl (fun m a => setParent m (annoId a) a.references)
        (setParent (pre.foldl (fun m a => setParent m (annoId a) a.references)
          ((pre ++ A :: suf).foldl (fun m a => tmSet m (annoId a) (mkAnnThread a)) []))
          (annoId A) A.references) := by
    simp only [buildThreadMap, List.foldl_append, List.foldl_cons]
  rw [hmap]
  obtain ⟨tA1, hfA1, _, hpA1⟩ := loop2_forward pre _ (annoId A) (mkAnnThread A) hA0
  obtain ⟨tB1, hfB1, _, _⟩ := loop2_forward pre _ (annoId B) (mkAnnThread B) hB0
  have hparA1 : tA1.parent = none := by
    rw [hpA1 (fun C hC => hpre_ne C hC)]
    rfl
  obtain ⟨hrefuse, hlinked⟩ := setParent_step_decided _ (annoId A) A.references (annoId B)
    tA1 tB1 hfA1 hparA1 hlast hfB1
  cases hlink : hasPathToRoot
      (pre.foldl (fun m a => setParent m (annoId a) a.references)
        ((pre ++ A :: suf).foldl (fun m a => tmSet m (annoId a) (mkAnnThread a)) []))
      (annoId A) (annoId B) with
  | false =>
    rw [hrefuse hlink]
    obtain ⟨tA', hfA', _, hpA'⟩ := loop2_forward suf _ (annoId A) tA1 hfA1
    exact ⟨tA', hfA', Or.inr (by rw [hpA' (fun C hC => hsuf_ne C hC)]; exact hparA1)⟩
  | true =>
    obtain ⟨tA2, tB2, hfA2, hpA2, hfB2, hmem2⟩ := hlinked hlink
    obtain ⟨tA', hfA', _, hpA'⟩ := loop2_forward suf _ (annoId A) tA2 hfA2
    obtain ⟨tB', hfB', hevB', _⟩ := loop2_forward suf _ (annoId B) tB2 hfB2
    refine ⟨tA', hfA', Or.inl ⟨?_, tB', hfB', ?_⟩⟩
    · rw [hpA' (fun C hC => hsuf_ne C hC)]
      exact hpA2
    · obtain ⟨app, happ⟩ := hevB'.children_ext
      rw [happ]
      exact List.mem_append_left app hmem2

/-- One `setParent` call whose target has no parent yet and whose nearest
referenced ancestor `p` is missing from the map: a placeholder is created and
stored under `p`, carrying no annotation and the `'__default__'` sentinel id,
and its own parent — assigned through the recursion on the remaining chain —
is either absent or the nearest ancestor of that remaining chain. -/
theorem setParent_step_placeholder (m : ThreadMap) (i : String) (rs : List String)
    (p : String) (tA : FlatThread) (hA : tmFind m i = some tA) (hpar : tA.parent = none)
    (hpn : tmFind m p = none) :
    ∃ t, tmFind (setParent m i (rs ++ [p])) p = some t ∧
      t.anno = none ∧ t.id = "__default__" ∧
      (t.parent = none ∨ ∃ q, rs.getLast? = some q ∧ t.parent = some q) := by
  have hip : i ≠ p := fun h => by rw [h, hpn] at hA; exact Option.noConfusion hA
  have hpi : p ≠ i := fun h => hip h.symm
  show ∃ t, tmFind (setParentF m i ((rs ++ [p]).length + 1) (rs ++ [p])) p = some t ∧ _
  simp only [setParentF, hA, hpar, jsTruthy_none, Bool.false_eq_true, if_false,
    List.getLast?_concat, List.dropLast_concat, hpn, Option.isSome_none]
  obtain ⟨tp1, hfp1, hev1, _⟩ := setParentF_forward ((rs ++ [p]).length)
    (tmSet m p defaultThreadState) p rs p defaultThreadState (tmFind_tmSet_self m p _)
  obtain ⟨tp2, hfp2, hdisj⟩ := setParentF_parent_self ((rs ++ [p]).length)
    (tmSet m p defaultThreadState) p rs defaultThreadState (tmFind_tmSet_self m p _)
  have hteq : tp2 = tp1 := Option.some_injective _ (hfp2.symm.trans hfp1)
  subst hteq
  have hfA' : tmFind (tmSet m p defaultThreadState) i = some tA := by
    rw [tmFind_tmSet_ne _ _ _ _ hip]
    exact hA
  obtain ⟨tA1', hfA1', _, _⟩ := setParentF_forward ((rs ++ [p]).length)
    (tmSet m p defaultThreadState) p rs i tA hfA'
  by_cases hlink : hasPathToRoot
      (setParentF (tmSet m p defaultThreadState) p ((rs ++ [p]).length) rs) i p = true
  · simp only [hlink, if_true, hfA1']
    have h1 : tmFind (tmSet
        (setParentF (tmSet m p defaultThreadState) p ((rs ++ [p]).length) rs) i
        { tA1' with parent := some p }) p = some tp2 := by
      rw [tmFind_tmSet_ne _ _ _ _ hpi]
      exact hfp1
    simp only [h1]
    rw [tmFind_tmSet_self]
    refine ⟨_, rfl, ?_, ?_, ?_⟩
    · exact hev1.anno_eq
    · exact hev1.id_eq
    · exact hdisj
  · simp only [hlink, Bool.false_eq_true, if_false]
    exact ⟨tp2, hfp1, hev1.anno_eq, hev1.id_eq, hdisj⟩

/-- C4 (amended): when the nearest referenced ancestor `p` of record A is
missing from the input (distinct resolved ids; only A references `p`), the
build synthesizes a placeholder stored in the collection under key `p`, with
no annotation, whose `id` field is the `'__default__'` sentinel (not `p`),
and whose own parent — established through the remaining (all-but-last)
reference chain — is either absent or the nearest ancestor of that remaining
chain. -/
theorem placeholder_synthesis (annotations : List Ann) (A : Ann) (rs : List String)
    (p : String) (hnd : (annotations.map annoId).Nodup) (hA : A ∈ annotations)
    (hrefs : A.references = rs ++ [p]) (hmissing : p ∉ annotations.map annoId)
    (honly : ∀ C ∈ annotations, C = A ∨ p ∉ C.references) :
    ∃ t, tmFind (buildThreadMap annotations) p = some t ∧
      t.anno = none ∧ t.id = "__default__" ∧
      (t.parent = none ∨ ∃ q, rs.getLast? = some q ∧ t.parent = some q) := by
  have hA0 := loop1_found annotations [] A hA hnd
  obtain ⟨pre, suf, rfl⟩ := List.append_of_mem hA
  have hnd' := hnd
  simp only [List.map_append, List.map_cons, List.nodup_append, List.nodup_cons] at hnd'
  have hpre_ne : ∀ C ∈ pre, annoId C ≠ annoId A := by
    intro C hC h
    exact (hnd'.2.2 (List.mem_map_of_mem annoId hC)) (by simp [h])
  have hsuf_nep : ∀ C ∈ suf, annoId C ≠ p := by
    intro C hC h
    exact hmissing (h ▸ List.mem_map_of_mem annoId
      (List.mem_append_right pre (List.mem_cons_of_mem A hC)))
  have hpre_norefp : ∀ C ∈ pre, p ∉ C.references := by
    intro C hC
    rcases honly C (List.mem_append_left _ hC) with hCA | hno
    · exact absurd (congrArg annoId hCA) (hpre_ne C hC)
    · exact hno
  have hM0p : tmFind ((pre ++ A :: suf).foldl
      (fun m a => tmSet m (annoId a) (mkAnnThread a)) []) p = none := by
    cases hmp : tmFind ((pre ++ A :: suf).foldl
        (fun m a => tmSet m (annoId a) (mkAnnThread a)) []) p with
    | none => rfl
    | some v =>
      have hsome : (tmFind ((pre ++ A :: suf).foldl
          (fun m a => tmSet m (annoId a) (mkAnnThread a)) []) p).isSome = true := by
        rw [hmp]; rfl
      rcases loop1_keys _ [] p hsome with h | h
      · exact absurd h (by simp [tmFind])
      · exact absurd h hmissing
  have hmap : buildThreadMap (pre ++ A :: suf) =
      suf.foldl (fun m a => setParent m (annoId a) a.references)
        (setParent (pre.foldl (fun m a => setParent m (annoId a) a.references)
          ((pre ++ A :: suf).foldl (fun m a => tmSet m (annoId a) (mkAnnThread a)) []))
          (annoId A) A.references) := by
    simp only [buildThreadMap, List.foldl_append, List.foldl_cons]
  rw [hmap]
  have hM1p : tmFind (pre.foldl (fun m a => setParent m (annoId a) a.references)
      ((pre ++ A :: suf).foldl (fun m a => tmSet m (annoId a) (mkAnnThread a)) [])) p
      = none := by
    cases hmp : tmFind (pre.foldl (fun m a => setParent m (annoId a) a.references)
        ((pre ++ A :: suf).foldl (fun m a => tmSet m (annoId a) (mkAnnThread a)) [])) p with
    | none => rfl
    | some v =>
      have hsome : (tmFind (pre.foldl (fun m a => setParent m (annoId a) a.references)
          ((pre ++ A :: suf).foldl (fun m a => tmSet m (annoId a) (mkAnnThread a)) []))
          p).isSome = true := by
        rw [hmp]; rfl
      rcases loop2_new_keys pre _ p hsome with h | h
      · rw [hM0p] at h
        exact absurd h (by simp)
      · obtain ⟨C, hC, href⟩ := h
        exact absurd href (hpre_norefp C hC)
  obtain ⟨tA1, hfA1, _, hpA1⟩ := loop2_forward pre _ (annoId A) (mkAnnThread A) hA0
  have hparA1 : tA1.parent = none := by
    rw [hpA1 (fun C hC => hpre_ne C hC)]
    rfl
  obtain ⟨tp2, hfp2, hanno2, hid2, hdisj2⟩ := setParent_step_placeholder _ (annoId A) rs p
    tA1 hfA1 hparA1 hM1p
  rw [hrefs]
  obtain ⟨tp', hfp', hev', hppar'⟩ := loop2_forward suf _ p tp2 hfp2
  refine ⟨tp', hfp', ?_, ?_, ?_⟩
  · rw [hev'.anno_eq]
    exact hanno2
  · rw [hev'.id_eq]
    exact hid2
  · rw [hppar' (fun C hC => hsuf_nep C hC)]
    exact hdisj2

/-- Witness for C3 at a concrete input (B = "A" exists, A = "B" replies to it). -/
theorem setParent_links_nearest_existing_witness :
    (([annPlain, annDangling].map annoId).Nodup ∧
      annDangling.references.getLast? = some (annoId annPlain)) ∧
    ∃ tA, tmFind (buildThreadMap [annPlain, annDangling]) (annoId annDangling) = some tA ∧
      ((tA.parent = some (annoId annPlain) ∧
        ∃ tB, tmFind (buildThreadMap [annPlain, annDangling]) (annoId annPlain) = some tB ∧
          annoId annDangling ∈ tB.children) ∨
       tA.parent = none) :=
  ⟨⟨by decide, by decide⟩,
    setParent_links_nearest_existing [annPlain, annDangling] annDangling annPlain
      (by decide) (by decide) (by decide) (by decide)⟩

/-- Witness for C4 at a concrete input (reply to the missing ancestor "A"). -/
theorem placeholder_synthesis_witness :
    (([annDangling].map annoId).Nodup ∧ annDangling.references = [] ++ ["A"] ∧
      "A" ∉ [annDangling].map annoId) ∧
    ∃ t, tmFind (buildThreadMap [annDangling]) "A" = some t ∧
      t.anno = none ∧ t.id = "__default__" ∧
      (t.parent = none ∨ ∃ q, List.getLast? [] = some q ∧ t.parent = some q) :=
  ⟨⟨by decide, by decide, by decide⟩,
    placeholder_synthesis [annDangling] annDangling [] "A"
      (by decide) (by decide) (by decide) (by decide) (by decide)⟩

/-! ## Data preservation through the projection stages -/

theorem subtrees_eq (t : Thread) : subtrees t = t :: t.children.flatMap subtrees := by
  cases t
  simp [subtrees]

theorem subtrees_trans {t c s : Thread} (hc : c ∈ t.children) (hs : s ∈ subtrees c) :
    s ∈ subtrees t := by
  cases t
  exact mem_subtrees_of_child hc hs

theorem mapThread_node (f : Thread → Thread) (d : ThreadData) (cs : List Thread) :
    mapThread f (.node d cs) = (f (.node d cs)).setChildren (cs.map (mapThread f)) := by
  simp [mapThread]

/-- Every node of `mapThread f t` carries the per-node data `f` computed on
the corresponding node of `t`. -/
theorem subtrees_mapThread (f : Thread → Thread) :
    ∀ (t : Thread) (s : Thread), s ∈ subtrees (mapThread f t) →
      ∃ s0 ∈ subtrees t, s.data = (f s0).data := by
  intro t
  induction t using Thread.my_induction with
  | h d cs ih =>
    intro s hs
    rw [mapThread_node] at hs
    rw [subtrees_eq] at hs
    simp only [Thread.children_setChildren, List.mem_cons, List.mem_flatMap] at hs
    rcases hs with h1 | ⟨c', hc', hs'⟩
    · subst h1
      exact ⟨.node d cs, self_mem_subtrees _, by simp⟩
    · obtain ⟨c0, hc0, rfl⟩ := List.mem_map.mp hc'
      obtain ⟨s0, hs0, hdata⟩ := ih c0 hc0 s hs'
      exact ⟨s0, mem_subtrees_of_child hc0 hs0, hdata⟩

/-- Nodes of a filtered-children clone of `t` have the data of nodes of `t`. -/
theorem subtrees_filter_sub (g : Thread → Bool) (t : Thread) (s : Thread)
    (hs : s ∈ subtrees (Thread.setChildren t (t.children.filter g))) :
    ∃ s0 ∈ subtrees t, s.data = s0.data := by
  rw [subtrees_eq] at hs
  simp only [Thread.children_setChildren, List.mem_cons, List.mem_flatMap] at hs
  rcases hs with h1 | ⟨c, hc, hsc⟩
  · subst h1
    exact ⟨t, self_mem_subtrees t, by simp⟩
  · exact ⟨s, subtrees_trans (List.mem_of_mem_filter hc) hsc, rfl⟩

theorem sortThread_node (d : ThreadData) (cs : List Thread)
    (cf rf : Ann → Ann → Bool) :
    sortThread (.node d cs) cf rf =
      Thread.setChildren (.node d cs)
        (sortThreads (cs.map (fun c => sortThread c rf rf)) cf) := by
  simp [sortThread]

theorem mem_sortThreads {ts : List Thread} {cf : Ann → Ann → Bool} {x : Thread}
    (hx : x ∈ sortThreads ts cf) : x ∈ ts :=
  (List.perm_insertionSort _ ts).mem_iff.mp hx

/-- Sorting permutes children at every level but changes no node data. -/
theorem subtrees_sortThread :
    ∀ (t : Thread) (cf rf : Ann → Ann → Bool) (s : Thread),
      s ∈ subtrees (sortThread t cf rf) → ∃ s0 ∈ subtrees t, s.data = s0.data := by
  intro t
  induction t using Thread.my_induction with
  | h d cs ih =>
    intro cf rf s hs
    rw [sortThread_node, subtrees_eq] at hs
    simp only [Thread.children_setChildren, List.mem_cons, List.mem_flatMap] at hs
    rcases hs with h1 | ⟨c', hc', hs'⟩
    · subst h1
      exact ⟨.node d cs, self_mem_subtrees _, by simp⟩
    · obtain ⟨c0, hc0, rfl⟩ := List.mem_map.mp (mem_sortThreads hc')
      obtain ⟨s0, hs0, hdata⟩ := ih c0 hc0 rf rf s hs'
      exact ⟨s0, mem_subtrees_of_child hc0 hs0, hdata⟩

/-- The counting pass changes no `anno` or `visible` field. -/
theorem subtrees_count_data :
    ∀ (t : Thread) (d : Int) (s : Thread), s ∈ subtrees (countRepliesAndDepth t d) →
      ∃ s0 ∈ subtrees t, s.anno = s0.anno ∧ s.visible = s0.visible := by
  intro t
  induction t using Thread.my_induction with
  | h d0 cs ih =>
    intro d s hs
    rw [countRepliesAndDepth_node, subtrees_eq] at hs
    simp only [Thread.children_node, List.mem_cons, List.mem_flatMap] at hs
    rcases hs with h1 | ⟨c', hc', hs'⟩
    · subst h1
      exact ⟨.node d0 cs, self_mem_subtrees _, by simp [Thread.anno, Thread.visible], by
        simp [Thread.anno, Thread.visible]⟩
    · obtain ⟨c0, hc0, rfl⟩ := List.mem_map.mp hc'
      obtain ⟨s0, hs0, hdata⟩ := ih c0 hc0 (d + 1) s hs'
      exact ⟨s0, mem_subtrees_of_child hc0 hs0, hdata⟩

theorem uiState_anno (opts : Options) (t : Thread) : (uiState opts t).anno = t.anno := rfl

theorem uiState_visible (opts : Options) (t : Thread) :
    (uiState opts t).visible = t.visible := rfl

/-! ## Invariants over every map entry -/

/-- A predicate holding for the placeholder default and closed under the two
update shapes of the linking phase holds for every entry `setParent` leaves
behind, provided it held before. -/
theorem setParentF_allVals (P : FlatThread → Prop)
    (hPd : P defaultThreadState)
    (hPp : ∀ t q, P t → P { t with parent := q })
    (hPc : ∀ t l, P t → P { t with children := t.children ++ l }) :
    ∀ (fuel : Nat) (m : ThreadMap) (i : String) (ps : List String),
      (∀ k t, tmFind m k = some t → P t) →
      ∀ k t, tmFind (setParentF m i fuel ps) k = some t → P t := by
  intro fuel
  induction fuel with
  | zero => exact fun m i ps hm k t ht => hm k t ht
  | succ fuel ih =>
    intro m i ps hm k t ht
    simp only [setParentF] at ht
    cases hti : tmFind m i with
    | none => simp only [hti] at ht; exact hm k t ht
    | some tid =>
      simp only [hti] at ht
      by_cases hpt : jsTruthy tid.parent = true
      · simp only [hpt, if_true] at ht
        exact hm k t ht
      · simp only [Bool.not_eq_true] at hpt
        simp only [hpt, Bool.false_eq_true, if_false] at ht
        cases hgl : ps.getLast? with
        | none => simp only [hgl] at ht; exact hm k t ht
        | some parentId =>
          simp only [hgl] at ht
          by_cases hpe : (tmFind m parentId).isSome = true
          · simp only [hpe, if_true] at ht
            by_cases hlink : hasPathToRoot m i parentId = true
            · simp only [hlink, if_true, hti] at ht
              cases hb : tmFind (tmSet m i { tid with parent := some parentId }) parentId with
              | none =>
                simp only [hb] at ht
                rcases tmSet_entries _ _ _ _ _ ht with h1 | h1
                · subst h1; exact hPp tid _ (hm i tid hti)
                · exact hm k _ h1
              | some tp =>
                simp only [hb] at ht
                have hPtp : P tp := by
                  rcases tmSet_entries _ _ _ _ _ hb with h1 | h1
                  · subst h1; exact hPp tid _ (hm i tid hti)
                  · exact hm parentId _ h1
                rcases tmSet_entries _ _ _ _ _ ht with h1 | h1
                · subst h1; exact hPc tp _ hPtp
                · rcases tmSet_entries _ _ _ _ _ h1 with h2 | h2
                  · subst h2; exact hPp tid _ (hm i tid hti)
                  · exact hm k _ h2
            · simp only [hlink, Bool.false_eq_true, if_false] at ht
              exact hm k t ht
          · simp only [hpe, Bool.false_eq_true, if_false] at ht
            have hm1 : ∀ k' t', tmFind (tmSet m parentId defaultThreadState) k' = some t' →
                P t' := by
              intro k' t' ht'
              rcases tmSet_entries _ _ _ _ _ ht' with h1 | h1
              · subst h1; exact hPd
              · exact hm k' _ h1
            have hm2 : ∀ k' t', tmFind (setParentF (tmSet m parentId defaultThreadState)
                parentId fuel ps.dropLast) k' = some t' → P t' :=
              fun k' t' ht' => ih _ parentId ps.dropLast hm1 k' t' ht'
            by_cases hlink : hasPathToRoot
                (setParentF (tmSet m parentId defaultThreadState) parentId fuel ps.dropLast)
                i parentId = true
            · simp only [hlink, if_true] at ht
              cases hfi : tmFind
                  (setParentF (tmSet m parentId defaultThreadState) parentId fuel ps.dropLast)
                  i with
              | none =>
                simp only [hfi] at ht
                cases hb : tmFind (setParentF (tmSet m parentId defaultThreadState)
                    parentId fuel ps.dropLast) parentId with
                | none => simp only [hb] at ht; exact hm2 k t ht
                | some tp =>
                  simp only [hb] at ht
                  rcases tmSet_entries _ _ _ _ _ ht with h1 | h1
                  · subst h1; exact hPc tp _ (hm2 parentId tp hb)
                  · exact hm2 k _ h1
              | some ti1 =>
                simp only [hfi] at ht
                have hPti1 : P ti1 := hm2 i ti1 hfi
                cases hb : tmFind (tmSet
                    (setParentF (tmSet m parentId defaultThreadState) parentId fuel
                      ps.dropLast) i { ti1 with parent := some parentId }) parentId with
                | none =>
                  simp only [hb] at ht
                  rcases tmSet_entries _ _ _ _ _ ht with h1 | h1
                  · subst h1; exact hPp ti1 _ hPti1
                  · exact hm2 k _ h1
                | some tp =>
                  simp only [hb] at ht
                  have hPtp : P tp := by
                    rcases tmSet_entries _ _ _ _ _ hb with h1 | h1
                    · subst h1; exact hPp ti1 _ hPti1
                    · exact hm2 parentId _ h1
                  rcases tmSet_entries _ _ _ _ _ ht with h1 | h1
                  · subst h1; exact hPc tp _ hPtp
                  · rcases tmSet_entries _ _ _ _ _ h1 with h2 | h2
                    · subst h2; exact hPp ti1 _ hPti1
                    · exact hm2 k _ h2
            · simp only [hlink, Bool.false_eq_true, if_false] at ht
              exact hm2 k t ht

/-- Every entry of the built map has `visible = true` (nothing before the
projection's visibility pass ever clears the flag). -/
theorem buildThreadMap_visible (annotations : List Ann) :
    ∀ k t, tmFind (buildThreadMap annotations) k = some t → t.visible = true := by
  have hloop1 : ∀ (l : List Ann) (acc : ThreadMap),
      (∀ k t, tmFind acc k = some t → t.visible = true) →
      ∀ k t, tmFind (l.foldl (fun m a => tmSet m (annoId a) (mkAnnThread a)) acc) k
        = some t → t.visible = true := by
    intro l
    induction l with
    | nil => exact fun acc h => h
    | cons a l ih =>
      intro acc hacc
      refine ih _ ?_
      intro k t ht
      rcases tmSet_entries _ _ _ _ _ ht with h1 | h1
      · subst h1; rfl
      · exact hacc k _ h1
  have hloop2 : ∀ (l : List Ann) (m : ThreadMap),
      (∀ k t, tmFind m k = some t → t.visible = true) →
      ∀ k t, tmFind (l.foldl (fun m a => setParent m (annoId a) a.references) m) k
        = some t → t.visible = true := by
    intro l
    induction l with
    | nil => exact fun m h => h
    | cons a l ih =>
      intro m hm
      refine ih _ ?_
      exact setParentF_allVals (fun t => t.visible = true) rfl
        (fun t q h => h) (fun t l' h => h) _ m (annoId a) a.references hm
  intro k t ht
  exact hloop2 annotations _ (hloop1 annotations [] (by intro k t ht; cases ht)) k t ht

/-- Lookup through the collapsed-marking pass. -/
theorem tmFind_markTopLevelCollapsed (m : ThreadMap) (k : String) :
    tmFind (markTopLevelCollapsed m) k = (tmFind m k).map
      (fun v => if jsTruthy v.parent = true then v else { v with collapsed := true }) := by
  induction m with
  | nil => rfl
  | cons p rest ih =>
    by_cases hp : p.1 = k
    · by_cases hpt : jsTruthy p.2.parent = true
      · simp [markTopLevelCollapsed, tmFind, hp, hpt]
      · simp [markTopLevelCollapsed, tmFind, hp, hpt]
    · by_cases hpt : jsTruthy p.2.parent = true
      · simpa [markTopLevelCollapsed, tmFind, hp, hpt] using ih
      · simpa [markTopLevelCollapsed, tmFind, hp, hpt] using ih

theorem travChildren_mem (f : String → Option Thread) :
    ∀ (ks : List String) (cs : List Thread), travChildren f ks = some cs →
      ∀ c ∈ cs, ∃ k ∈ ks, f k = some c := by
  intro ks
  induction ks with
  | nil =>
    intro cs h c hc
    simp only [travChildren] at h
    rw [← Option.some_injective _ h] at hc
    cases hc
  | cons k ks ih =>
    intro cs h c hc
    simp only [travChildren] at h
    cases hfk : f k with
    | none => rw [hfk] at h; cases h
    | some t =>
      rw [hfk] at h
      cases htr : travChildren f ks with
      | none => rw [htr] at h; cases h
      | some ts =>
        rw [htr] at h
        rw [← Option.some_injective _ h] at hc
        rcases List.mem_cons.mp hc with h1 | h1
        · subst h1; exact ⟨k, List.mem_cons_self k ks, hfk⟩
        · obtain ⟨k', hk', hfk'⟩ := ih ts htr c h1
          exact ⟨k', List.mem_cons_of_mem k hk', hfk'⟩

/-- Every node of a materialized tree carries the data of some map entry. -/
theorem materializeF_subtrees :
    ∀ (fuel : Nat) (m : ThreadMap) (k0 : String) (t : Thread),
      materializeF m fuel k0 = some t → ∀ s ∈ subtrees t,
        ∃ k e, tmFind m k = some e ∧ s.data =
          ⟨e.id, e.anno, e.parent, e.visible, e.collapsed, e.totalChildren,
            e.highlightState, 0, 0⟩ := by
  intro fuel
  induction fuel with
  | zero => intro m k0 t h; cases h
  | succ fuel ih =>
    intro m k0 t h s hs
    simp only [materializeF] at h
    cases hfk : tmFind m k0 with
    | none => simp only [hfk] at h; exact Option.noConfusion h
    | some e0 =>
      simp only [hfk] at h
      cases htr : travChildren (materializeF m fuel) e0.children with
      | none => simp only [htr] at h; exact Option.noConfusion h
      | some cs =>
        simp only [htr] at h
        rw [← Option.some_injective _ h] at hs
        rcases mem_subtrees_elim hs with h1 | ⟨c, hc, hsc⟩
        · subst h1
          exact ⟨k0, e0, hfk, rfl⟩
        · obtain ⟨k, _, hfk'⟩ := travChildren_mem _ _ _ htr c hc
          exact ih m k c hfk' s hsc

/-- Every node of the raw materialized tree is visible. -/
theorem threadAnnotations_visible (annotations : List Ann) (t0 : Thread)
    (h : threadAnnotations annotations = some t0) :
    ∀ s ∈ subtrees t0, s.visible = true := by
  intro s hs
  simp only [threadAnnotations] at h
  cases htr : travChildren
      (materializeF (markTopLevelCollapsed (buildThreadMap annotations))
        ((markTopLevelCollapsed (buildThreadMap annotations)).length + 1))
      (rootIds (markTopLevelCollapsed (buildThreadMap annotations))) with
  | none => rw [htr] at h; cases h
  | some cs =>
    rw [htr] at h
    rw [← Option.some_injective _ h] at hs
    have hmv : ∀ k e, tmFind (markTopLevelCollapsed (buildThreadMap annotations)) k
        = some e → e.visible = true := by
      intro k e he
      rw [tmFind_markTopLevelCollapsed] at he
      cases hb : tmFind (buildThreadMap annotations) k with
      | none => rw [hb] at he; cases he
      | some e0 =>
        rw [hb] at he
        have hv0 : e0.visible = true := buildThreadMap_visible annotations k e0 hb
        simp only [Option.map_some'] at he
        rw [← Option.some_injective _ he]
        by_cases hpt : jsTruthy e0.parent = true
        · simp [hpt, hv0]
        · simp [hpt, hv0]
    rcases mem_subtrees_elim hs with h1 | ⟨c, hc, hsc⟩
    · subst h1
      rfl
    · obtain ⟨k, _, hfk⟩ := travChildren_mem _ _ _ htr c hc
      obtain ⟨k', e, hfe, hdata⟩ := materializeF_subtrees _ _ k c hfk s hsc
      show s.data.visible = true
      rw [hdata]
      exact hmv k' e hfe

/-- The per-node rule `isVisible` implements, for nodes whose prior `visible`
flag is set (which is every node reaching the visibility pass): visible iff
annotated and (force-visible or accepted by the filter, if any). -/
theorem isVisible_iff (opts : Options) (th : Thread) (hv : th.visible = true) :
    (isVisible opts th = true ↔ ∃ a, th.anno = some a ∧
      ((hasForcedVisible opts = true ∧ annoId a ∈ opts.forceVisible.getD []) ∨
       (∀ f, opts.filterFn = some f → f a = true))) := by
  constructor
  · intro h
    unfold isVisible at h
    rw [hv] at h
    simp only [Bool.not_true, Bool.false_eq_true, if_false] at h
    cases han : th.anno with
    | none => simp only [han] at h; exact absurd h (by simp)
    | some a =>
      simp only [han] at h
      refine ⟨a, rfl, ?_⟩
      by_cases hforce : (hasForcedVisible opts
          && (opts.forceVisible.getD []).contains (annoId a)) = true
      · have h12 := hforce
        rw [Bool.and_eq_true] at h12
        exact Or.inl ⟨h12.1, by simpa [List.contains, List.elem_iff] using h12.2⟩
      · rw [if_neg hforce] at h
        refine Or.inr ?_
        intro f hf
        rw [hf] at h
        exact h
  · rintro ⟨a, han, hcase⟩
    unfold isVisible
    rw [hv]
    simp only [Bool.not_true, Bool.false_eq_true, if_false, han]
    rcases hcase with ⟨h1, h2⟩ | hfil
    · rw [if_pos]
      rw [Bool.and_eq_true, h1]
      exact ⟨rfl, by simpa [List.contains, List.elem_iff] using h2⟩
    · by_cases hforce : (hasForcedVisible opts
          && (opts.forceVisible.getD []).contains (annoId a)) = true
      · rw [if_pos hforce]
      · rw [if_neg hforce]
        cases hf : opts.filterFn with
        | none => rfl
        | some f => exact hfil f hf

theorem subtrees_applySelected (opts : Options) (t : Thread) (s : Thread)
    (hs : s ∈ subtrees (applySelected opts t)) : ∃ s0 ∈ subtrees t, s.data = s0.data := by
  unfold applySelected at hs
  split at hs
  · exact subtrees_filter_sub _ t s hs
  · exact ⟨s, hs, rfl⟩

theorem subtrees_applyThreadFilter (opts : Options) (t : Thread) (s : Thread)
    (hs : s ∈ subtrees (applyThreadFilter opts t)) : ∃ s0 ∈ subtrees t, s.data = s0.data := by
  unfold applyThreadFilter at hs
  split at hs
  · exact subtrees_filter_sub _ t s hs
  · exact ⟨s, hs, rfl⟩

/-- Nodes entering the visibility pass still carry `visible = true`. -/
theorem stage3_visible (annotations : List Ann) (opts : Options) (t0 : Thread)
    (h : threadAnnotations annotations = some t0) :
    ∀ s ∈ subtrees (applyThreadFilter opts (applySelected opts t0)), s.visible = true := by
  intro s hs
  obtain ⟨s1, hs1, hd1⟩ := subtrees_applyThreadFilter opts _ s hs
  obtain ⟨s2, hs2, hd2⟩ := subtrees_applySelected opts t0 s1 hs1
  show s.data.visible = true
  rw [hd1, hd2]
  exact threadAnnotations_visible annotations t0 h s2 hs2

/-- C7 (amended): during the visibility pass a node's computed `visible` flag
is true iff the node has an annotation and either its id is in `forceVisible`
or the item-level filter (when configured) accepts its annotation.  In
particular an annotation-less placeholder computes `visible = false` even
when its id is in `forceVisible` — the override only bypasses the filter
predicate, not the placeholder rule — and the prior-flag rule is vacuous here
because every node reaching this pass is still visible. -/
theorem visibility_pass_rule (annotations : List Ann) (opts : Options) (t0 : Thread)
    (h : threadAnnotations annotations = some t0) :
    ∀ s ∈ subtrees (applyVisibility opts (applyThreadFilter opts (applySelected opts t0))),
      (s.visible = true ↔ ∃ a, s.anno = some a ∧
        ((hasForcedVisible opts = true ∧ annoId a ∈ opts.forceVisible.getD []) ∨
         (∀ f, opts.filterFn = some f → f a = true))) := by
  intro s hs
  obtain ⟨s2, hs2, hdata⟩ := subtrees_mapThread _ _ s hs
  have hanno : s.anno = s2.anno := by
    show s.data.anno = s2.data.anno
    rw [hdata]
    rfl
  have hvis : s.visible = isVisible opts s2 := by
    show s.data.visible = _
    rw [hdata]
    rfl
  rw [hvis, hanno]
  exact isVisible_iff opts s2 (stage3_visible annotations opts t0 h s2 hs2)

/-- Witness for C7's amended rule at a concrete input. -/
theorem visibility_pass_rule_witness :
    Option.elim (threadAnnotations [annPlain]) False (fun t0 =>
      ∀ s ∈ subtrees (applyVisibility c7opts
          (applyThreadFilter c7opts (applySelected c7opts t0))),
        (s.visible = true ↔ ∃ a, s.anno = some a ∧
          ((hasForcedVisible c7opts = true ∧ annoId a ∈ c7opts.forceVisible.getD []) ∨
           (∀ f, c7opts.filterFn = some f → f a = true)))) := by
  cases h : threadAnnotations [annPlain] with
  | none =>
    have hs : (threadAnnotations [annPlain]).isSome = true := rfl
    rw [h] at hs
    exact absurd hs (by simp)
  | some t0 =>
    simp only [Option.elim]
    exact visibility_pass_rule [annPlain] c7opts t0 h

/-- C8: an annotation-bearing node whose id is in the `forceVisible` option
is computed visible by `buildThread`, whatever `filterFn` says. -/
theorem forceVisible_overrides_filter (annotations : List Ann) (opts : Options)
    (t : Thread) (h : buildThread annotations opts = some t) :
    ∀ s ∈ subtrees t, ∀ a, s.anno = some a → ∀ l, opts.forceVisible = some l →
      annoId a ∈ l → s.visible = true := by
  obtain ⟨t0, h0, rfl⟩ := Option.map_eq_some'.mp h
  intro s hs a han l hfv hmem
  simp only [projectTree] at hs
  obtain ⟨s6, hs6, han6, hv6⟩ := subtrees_count_data _ _ s hs
  obtain ⟨s5, hs5, hd5⟩ := subtrees_sortThread _ _ _ s6 hs6
  obtain ⟨s4, hs4, hd4⟩ := subtrees_mapThread (uiState opts) _ s5 hs5
  obtain ⟨s3, hs3, hd3⟩ := subtrees_filter_sub _ _ s4 hs4
  obtain ⟨s2, hs2, hd2⟩ := subtrees_mapThread _ _ s3 hs3
  have hv2 : s2.visible = true := stage3_visible annotations opts t0 h0 s2 hs2
  have han5 : s5.anno = s4.anno := by
    show s5.data.anno = s4.data.anno
    rw [hd4]
    exact uiState_anno opts s4
  have hvi5 : s5.visible = s4.visible := by
    show s5.data.visible = s4.data.visible
    rw [hd4]
    exact uiState_visible opts s4
  have han3 : s3.anno = s2.anno := by
    show s3.data.anno = s2.data.anno
    rw [hd2]
    rfl
  have hvi3 : s3.visible = isVisible opts s2 := by
    show s3.data.visible = _
    rw [hd2]
    rfl
  have hanno2 : s2.anno = some a := by
    have c1 : s6.anno = s5.anno := by
      show s6.data.anno = s5.data.anno
      rw [hd5]
    have c2 : s4.anno = s3.anno := by
      show s4.data.anno = s3.data.anno
      rw [hd3]
    rw [← han3, ← c2, ← han5, ← c1, ← han6]
    exact han
  have hforced : hasForcedVisible opts = true := by
    have hlz : l.length ≠ 0 := by
      intro hz
      rw [List.length_eq_zero] at hz
      subst hz
      cases hmem
    simp [hasForcedVisible, hfv, hlz]
  have hisv : isVisible opts s2 = true := by
    rw [isVisible_iff opts s2 hv2]
    refine ⟨a, hanno2, Or.inl ⟨hforced, ?_⟩⟩
    rw [hfv]
    simpa using hmem
  have e1 : s6.visible = s5.visible := by
    show s6.data.visible = s5.data.visible
    rw [hd5]
  have e2 : s4.visible = s3.visible := by
    show s4.data.visible = s3.data.visible
    rw [hd3]
  rw [hv6, e1, hvi5, e2, hvi3]
  exact hisv

def c8opts : Options :=
  { probeOpts with forceVisible := some ["A"], filterFn := some (fun _ => false) }

/-- Witness for C8 at a concrete input: the filter rejects everything, yet
the force-visible annotation "A" is computed visible. -/
theorem forceVisible_overrides_filter_witness :
    Option.elim (buildThread [annPlain] c8opts) False (fun t =>
      ∀ s ∈ subtrees t, ∀ a, s.anno = some a → ∀ l, c8opts.forceVisible = some l →
        annoId a ∈ l → s.visible = true) ∧
    ((buildThread [annPlain] c8opts).map (fun t => ((subtrees t).filter
        (fun s => s.id == "A")).map (fun s => s.visible))) = some [true] := by
  constructor
  · cases h : buildThread [annPlain] c8opts with
    | none =>
      have hs : (buildThread [annPlain] c8opts).isSome = true := rfl
      rw [h] at hs
      exact absurd hs (by simp)
    | some t =>
      simp only [Option.elim]
      exact forceVisible_overrides_filter [annPlain] c8opts t h
  · rfl

/-! ## The sorting contract -/

/-- The derived comparator is always total: a strictly positive comparison one
way forces a strictly negative one the other way. -/
theorem jsCompare_total (lt : Ann → Ann → Bool) (a b : Thread) :
    jsCompare lt a b ≤ 0 ∨ jsCompare lt b a ≤ 0 := by
  rcases ha : a.anno with _ | x <;> rcases hb : b.anno with _ | y <;>
      simp only [jsCompare, ha, hb]
  · exact Or.inl (by decide)
  · exact Or.inl (by decide)
  · exact Or.inr (by decide)
  · by_cases hxy : lt x y = true
    · exact Or.inl (by rw [if_pos hxy]; try decide)
    · by_cases hyx : lt y x = true
      · exact Or.inr (by rw [if_pos hyx]; try decide)
      · exact Or.inl (by rw [if_neg hxy, if_neg hyx]; try decide)

/-- C6 (amended): provided the less-than predicate induces a transitive
derived comparator (as a strict weak order does), the sort returns a
permutation of its input that is pairwise ordered by the three-way comparator
(every earlier-later pair compares at most 0); consequently an
annotation-bearing node never precedes an annotation-less one, and — when
`lt` is additionally asymmetric — for every earlier node `a` and later node
`b` of the output, `lt(b.annotation, a.annotation)` is false, the positional
form of "`a` is placed before `b` whenever `lt(a, b)` holds"; and every
comparator-equal sublist keeps its relative input order (stability). -/
theorem sortThreads_contract (ts : List Thread) (lt : Ann → Ann → Bool)
    (htrans : ∀ a b c : Thread, jsCompare lt a b ≤ 0 → jsCompare lt b c ≤ 0 →
      jsCompare lt a c ≤ 0) :
    (sortThreads ts lt).Perm ts ∧
    (sortThreads ts lt).Pairwise (fun a b => jsCompare lt a b ≤ 0) ∧
    (sortThreads ts lt).Pairwise (fun a b => b.anno = none → a.anno = none) ∧
    ((∀ x y, lt x y = true → lt y x = false) →
      (sortThreads ts lt).Pairwise (fun a b => ∀ x y, a.anno = some x →
        b.anno = some y → lt y x = false)) ∧
    (∀ l : List Thread, l.Pairwise (fun a b => jsCompare lt a b = 0) → l.Sublist ts →
      l.Sublist (sortThreads ts lt)) := by
  haveI : IsTrans Thread (fun a b => jsCompare lt a b ≤ 0) := ⟨htrans⟩
  haveI : IsTotal Thread (fun a b => jsCompare lt a b ≤ 0) := ⟨jsCompare_total lt⟩
  have hsorted : (sortThreads ts lt).Pairwise (fun a b => jsCompare lt a b ≤ 0) :=
    List.sorted_insertionSort _ ts
  refine ⟨List.perm_insertionSort _ ts, hsorted, ?_, ?_, ?_⟩
  · refine hsorted.imp ?_
    intro a b h hb
    rcases ha : a.anno with _ | x
    · rfl
    · simp only [jsCompare, ha, hb] at h
      omega
  · intro hasym
    refine hsorted.imp ?_
    intro a b h x y hax hby
    cases hyx : lt y x with
    | false => rfl
    | true =>
      have hxy : lt x y = false := hasym y x hyx
      simp only [jsCompare, hax, hby, hxy, hyx, Bool.false_eq_true, if_false,
        if_true] at h
      omega
  · intro l hpw hsub
    exact List.sublist_insertionSort (hpw.imp (fun h => le_of_eq h)) hsub

/-- Witness for C6's amended contract at a concrete input. -/
theorem sortThreads_contract_witness :
    (sortThreads [thN annN1 "N1", thN annN2 "N2"] (fun _ _ => false)).Perm
        [thN annN1 "N1", thN annN2 "N2"] ∧
    (sortThreads [thN annN1 "N1", thN annN2 "N2"] (fun _ _ => false)).Pairwise
        (fun a b => jsCompare (fun _ _ => false) a b ≤ 0) ∧
    (sortThreads [thN annN1 "N1", thN annN2 "N2"] (fun _ _ => false)).Pairwise
        (fun a b => b.anno = none → a.anno = none) ∧
    ((∀ x y, (fun (_ _ : Ann) => false) x y = true → (fun (_ _ : Ann) => false) y x
        = false) →
      (sortThreads [thN annN1 "N1", thN annN2 "N2"] (fun _ _ => false)).Pairwise
        (fun a b => ∀ x y, a.anno = some x → b.anno = some y →
          (fun (_ _ : Ann) => false) y x = false)) ∧
    (∀ l : List Thread, l.Pairwise (fun a b => jsCompare (fun _ _ => false) a b = 0) →
      l.Sublist [thN annN1 "N1", thN annN2 "N2"] →
      l.Sublist (sortThreads [thN annN1 "N1", thN annN2 "N2"] (fun _ _ => false))) :=
  sortThreads_contract [thN annN1 "N1", thN annN2 "N2"] (fun _ _ => false) (by
    intro a b c h1 h2
    rcases ha : a.anno with _ | x <;> rcases hb : b.anno with _ | y <;>
        rcases hc : c.anno with _ | z <;>
        (try simp only [jsCompare, ha, hb, hc, Bool.false_eq_true, if_false] at h1 h2 ⊢) <;>
      (try omega))

/-- C9: an empty `selected` list means no restriction — `buildThread` is the
pipeline with the selection-pruning stage skipped entirely. -/
theorem empty_selected_no_pruning (annotations : List Ann) (opts : Options)
    (hsel : opts.selected = []) :
    buildThread annotations opts = buildThreadWithoutSelection annotations opts := by
  have hstage : ∀ t, projectTree opts t = projectTreeNoSelection opts t := by
    intro t
    unfold projectTree projectTreeNoSelection applySelected
    rw [hsel]
    simp
  unfold buildThread buildThreadWithoutSelection
  cases h : threadAnnotations annotations with
  | none => rfl
  | some t0 => simp [hstage]

/-- Witness for C9 at a concrete input. -/
theorem empty_selected_no_pruning_witness :
    probeOpts.selected = [] ∧
    buildThread [annPlain, annDangling] probeOpts =
      buildThreadWithoutSelection [annPlain, annDangling] probeOpts :=
  ⟨rfl, empty_selected_no_pruning [annPlain, annDangling] probeOpts rfl⟩
